import Mathlib

/-!
Shallow embedding of three vtk-dicom source units and proofs about them:
* `vtkDICOMFileDirectory.cxx` — a directory lister with a growable entry
  table and lazily resolved per-entry type flags;
* `vtkDICOMSequenceItem.h` — a reference-counted, copy-on-write list of
  tagged data elements;
* `vtkDICOMFile.h` — only its `Code` error enumeration is needed here.

Stateful C++ methods are embedded as explicit state-passing functions.
Machine integers that stay small and non-negative are modelled as `Nat`
(overflow is commented wherever the C code could wrap).  Calls into the
operating system (readdir, FindFirstFile, stat, lstat) are modelled as
explicit inputs: the enumeration outcome is an argument of the constructor
and the stat calls are an oracle structure, so every definition is
executable on concrete inputs.
-/

namespace VtkDicom

/- ### Error codes: `enum Code` of vtkDICOMFile.h -/

def Good : Nat := 0
def Bad : Nat := 1
def AccessDenied : Nat := 2
def IsDirectoryCode : Nat := 3
def DirectoryNotFound : Nat := 4
def FileNotFound : Nat := 5
def OutOfSpace : Nat := 6

/- ### Directory lister: vtkDICOMFileDirectory -/

/-- Modelled from the spec: the header `vtkDICOMFileDirectory.h` is not part
of the given sources; it declares the classification flags used by the
`.cxx` file as two distinct single-bit values `TypeDirectory` and
`TypeSymlink` (spec §3: "classification flags {IsDirectory, IsSymlink}" and
a parallel "resolved" mask over the same bits). -/
def TypeDirectory : Nat := 1

/-- Modelled from the spec: second classification flag bit, distinct from
`TypeDirectory` (see that definition). -/
def TypeSymlink : Nat := 2

/-- `struct vtkDICOMFileDirectory::Entry`: a name, the classification flag
bits, and the mask recording which flag bits have been resolved. -/
structure Entry where
  Name : String
  Flags : Nat
  Mask : Nat
deriving DecidableEq, Repr

/-- The mutable state of a `vtkDICOMFileDirectory` object: the directory
name, the error code, the entry count, the entry table, and the allocated
capacity of the `Entries` array (0 while the pointer is null).  The C++
array together with its allocation size is modelled as a Lean list plus the
explicit `Capacity`; the proofs establish `NumberOfFiles ≤ Capacity`, which
is exactly the condition under which the C++ writes stay in bounds. -/
structure DirState where
  Name : String
  Error : Nat
  NumberOfFiles : Nat
  Entries : List Entry
  Capacity : Nat
deriving DecidableEq, Repr

/-- `vtkDICOMFileDirectory::AddEntry(name, flags, mask)`:
if the array is unallocated, allocate capacity 4; otherwise if
`n >= 4 && ((n-1) & n) == 0` (n = current count), reallocate to `n*2`
and copy the old entries over; then write the new entry at index `n`
and increment the count. -/
def AddEntry (s : DirState) (name : String) (flags mask : Nat) : DirState :=
  let n := s.NumberOfFiles
  let cap :=
    if s.Capacity = 0 then 4
    else if 4 ≤ n ∧ (n - 1) &&& n = 0 then n * 2
    else s.Capacity
  { s with Capacity := cap,
           Entries := s.Entries ++ [⟨name, flags, mask⟩],
           NumberOfFiles := n + 1 }

/-- `vtkDICOMFileDirectory::GetFile(i)`: null for `i < 0` or
`i >= NumberOfFiles`, else the i-th entry's name.  The method writes
nothing, so the state component of the result is always the input state. -/
def GetFile (s : DirState) (i : Int) : Option String × DirState :=
  if i < 0 ∨ (s.NumberOfFiles : Int) ≤ i then (none, s)
  else (s.Entries[i.toNat]?.map Entry.Name, s)

/-- Oracle for the two filesystem classification calls of the POSIX branch:
`statDir p = some b` means `stat(p)` (follows links) succeeded and `b` is
`S_ISDIR(st_mode)`; `none` means the call failed.  `lstatLnk` is the same
for `lstat(p)` (does not follow links) and `S_ISLNK(st_mode)`. -/
structure FS where
  statDir : String → Option Bool
  lstatLnk : String → Option Bool

/-- The external `vtkDICOMFilePath` collaborator: `path(dir)`,
`path.PushBack(name)`, `path.AsString()`. -/
def joinPath (dir name : String) : String := dir ++ "/" ++ name

/-- `vtkDICOMFileDirectory::IsDirectory(i)` (POSIX branch): out-of-range
indices answer false with no query; if the `TypeDirectory` mask bit is
unresolved, issue one `stat` (follow links) — on success record the flag
and set the mask bit, on failure change nothing — then answer from the flag
bit.  Result: (returned bool, state after the call, number of filesystem
queries performed by the call). -/
def IsDirectory (fs : FS) (s : DirState) (i : Int) : Bool × DirState × Nat :=
  if i < 0 ∨ (s.NumberOfFiles : Int) ≤ i then (false, s, 0)
  else
    match s.Entries[i.toNat]? with
    | none => (false, s, 0)
    | some e =>
      if e.Mask &&& TypeDirectory = 0 then
        match fs.statDir (joinPath s.Name e.Name) with
        | some b =>
          let e2 : Entry := { e with
            Flags := if b then e.Flags ||| TypeDirectory else e.Flags,
            Mask := e.Mask ||| TypeDirectory }
          (e2.Flags &&& TypeDirectory != 0,
           { s with Entries := s.Entries.set i.toNat e2 }, 1)
        | none => (e.Flags &&& TypeDirectory != 0, s, 1)
      else (e.Flags &&& TypeDirectory != 0, s, 0)

/-- `vtkDICOMFileDirectory::IsSymlink(i)` (POSIX branch): same shape as
`IsDirectory` with `lstat` (no follow) and the `TypeSymlink` bit. -/
def IsSymlink (fs : FS) (s : DirState) (i : Int) : Bool × DirState × Nat :=
  if i < 0 ∨ (s.NumberOfFiles : Int) ≤ i then (false, s, 0)
  else
    match s.Entries[i.toNat]? with
    | none => (false, s, 0)
    | some e =>
      if e.Mask &&& TypeSymlink = 0 then
        match fs.lstatLnk (joinPath s.Name e.Name) with
        | some b =>
          let e2 : Entry := { e with
            Flags := if b then e.Flags ||| TypeSymlink else e.Flags,
            Mask := e.Mask ||| TypeSymlink }
          (e2.Flags &&& TypeSymlink != 0,
           { s with Entries := s.Entries.set i.toNat e2 }, 1)
        | none => (e.Flags &&& TypeSymlink != 0, s, 1)
      else (e.Flags &&& TypeSymlink != 0, s, 0)

/-- The member-initializer state of the constructor:
`Name(dirname), Error(0), NumberOfFiles(0), Entries(0)`. -/
def emptyDir (dirname : String) : DirState :=
  { Name := dirname, Error := Good, NumberOfFiles := 0,
    Entries := [], Capacity := 0 }

/-- The errno values the POSIX constructor branch distinguishes after a
failed `opendir`. -/
inductive PosixErrno
  | eacces
  | eperm
  | enoent
  | enotdir
  | eother
deriving DecidableEq, Repr

/-- `vtkDICOMFileDirectory::vtkDICOMFileDirectory(dirname)`, POSIX branch.
The operating-system interaction is the input: `.error e` is a failed
`opendir` with errno `e`; `.ok names` is a successful `opendir` followed
by `readdir` yielding `names` in order.  Each name other than `"."` and
`".."` is added with flags 0 and mask 0. -/
def posixConstruct (dirname : String)
    (listing : Except PosixErrno (List String)) : DirState :=
  match listing with
  | .error e =>
    { emptyDir dirname with Error :=
        match e with
        | .eacces => AccessDenied
        | .eperm => AccessDenied
        | .enoent => FileNotFound
        | .enotdir => DirectoryNotFound
        | .eother => Bad }
  | .ok names =>
    names.foldl
      (fun s n => if n ≠ "." ∧ n ≠ ".." then AddEntry s n 0 0 else s)
      (emptyDir dirname)

/-- One record produced by `FindFirstFileW`/`FindNextFileW`:
the file name, whether the attributes mark a symlink reparse point
(`FILE_ATTRIBUTE_REPARSE_POINT` set and `dwReserved0 ==
IO_REPARSE_TAG_SYMLINK`), and whether `FILE_ATTRIBUTE_DIRECTORY` is set. -/
structure FindData where
  cFileName : String
  isSymlinkReparse : Bool
  isDirectory : Bool
deriving DecidableEq, Repr

/-- The `GetLastError` values the Win32 constructor branch distinguishes. -/
inductive W32Code
  | noMoreFiles
  | accessDenied
  | fileNotFound
  | pathNotFound
  | errorDirectory
  | other
deriving DecidableEq, Repr

/-- The Win32 branch's mapping from the final `GetLastError` value to the
`Code` enumeration (`ERROR_NO_MORE_FILES` leaves the error at its
initialized value `Good`). -/
def win32ErrorMap : W32Code → Nat
  | .accessDenied => AccessDenied
  | .fileNotFound => FileNotFound
  | .pathNotFound => FileNotFound
  | .errorDirectory => DirectoryNotFound
  | .noMoreFiles => Good
  | .other => Bad

/-- `vtkDICOMFileDirectory::vtkDICOMFileDirectory(dirname)`, Win32 branch.
Inputs model the operating-system interaction: `wideOk = false` is a failed
`ConvertToWideChar` (error `Bad`, nothing enumerated); `found = none` is
`FindFirstFileW` returning `INVALID_HANDLE_VALUE` with `GetLastError` equal
to `code` (an `ERROR_FILE_NOT_FOUND` there is rewritten to
`ERROR_NO_MORE_FILES` before the mapping); `found = some records` is a
successful enumeration of `records` in order, after which `GetLastError`
equals `code`.  Every record is added — the loop body contains no test of
the name, so `"."` and `".."` are inserted like any other name — with the
symlink/directory flags derived from the attributes and the full mask. -/
def win32Construct (dirname : String) (wideOk : Bool)
    (found : Option (List FindData)) (code : W32Code) : DirState :=
  if wideOk = false then { emptyDir dirname with Error := Bad }
  else
    match found with
    | none =>
      let c := if code = W32Code.fileNotFound then W32Code.noMoreFiles
               else code
      { emptyDir dirname with Error := win32ErrorMap c }
    | some records =>
      let s := records.foldl
        (fun s r =>
          AddEntry s r.cFileName
            ((if r.isSymlinkReparse then TypeSymlink else 0) |||
             (if r.isDirectory then TypeDirectory else 0))
            (TypeSymlink ||| TypeDirectory))
        (emptyDir dirname)
      { s with Error := win32ErrorMap code }

/- ### Sequence item: vtkDICOMSequenceItem -/

/-- `vtkDICOMTag`: an external type stored opaquely, modelled as `Nat`. -/
abbrev Tag := Nat

/-- `vtkDICOMValue`: an external type stored opaquely, modelled as `Nat`. -/
abbrev Value := Nat

/-- `struct vtkDICOMSequenceItem::List`: the reference count, the
`NumberOfDataElements` counter, and the intrusive doubly-linked chain of
`vtkDICOMDataElement` nodes between the `Head` and `Tail` sentinels,
modelled as the Lean list of the data-bearing nodes in chain order (the
sentinels carry no data). -/
structure ListObj where
  ReferenceCount : Nat
  NumberOfDataElements : Nat
  Elems : List (Tag × Value)
deriving DecidableEq, Repr

/-- Machine state for a family of `vtkDICOMSequenceItem` objects: `heap`
is the allocation store of `List` objects — slot `l` holds `some obj`
while the list at address `l` is allocated and `none` once it has been
`delete`d; allocation always appends a fresh slot, so addresses are never
reused.  `items` holds each item's `L` pointer (`none` = null).  `freedLog`
records every `delete this->L` in order, so "destroyed exactly once" is a
statement about this log.  A destroyed item object is left behind as a
null-pointer husk (its destructor is exactly `Clear()`), which has the same
effect on the shared list as clearing it. -/
structure SeqState where
  heap : List (Option ListObj)
  items : List (Option Nat)
  freedLog : List Nat
deriving DecidableEq, Repr

/-- Number of items whose `L` pointer equals `some l`. -/
def refCount (l : Nat) : List (Option Nat) → Nat
  | [] => 0
  | p :: ps => (if p = some l then 1 else 0) + refCount l ps

/-- `if (this->L && --this->L->ReferenceCount == 0) { delete this->L; }`
applied to pointer `p`: returns the heap afterwards and the address freed,
if any.  `--count == 0` on the `unsigned int` is `count == 1` before the
decrement (at `count = 0` the C `--` would wrap to `UINT_MAX`, not 0; that
state is unreachable here because the count equals the number of
referencing items whenever a decrement happens). -/
def releaseRef (heap : List (Option ListObj)) (p : Option Nat) :
    List (Option ListObj) × Option Nat :=
  match p with
  | none => (heap, none)
  | some l =>
    match heap[l]? with
    | some (some obj) =>
      if obj.ReferenceCount = 1 then (heap.set l none, some l)
      else
        (heap.set l
          (some { obj with ReferenceCount := obj.ReferenceCount - 1 }),
         none)
    | _ => (heap, none)

/-- `if (p) { p->ReferenceCount++; }` applied to pointer `p`. -/
def acquireRef (heap : List (Option ListObj)) (p : Option Nat) :
    List (Option ListObj) :=
  match p with
  | some l =>
    match heap[l]? with
    | some (some obj) =>
      heap.set l (some { obj with ReferenceCount := obj.ReferenceCount + 1 })
    | _ => heap
  | none => heap

/-- Default constructor `vtkDICOMSequenceItem() : L(0)`: a new item with a
null pointer. -/
def newItem (s : SeqState) : SeqState :=
  { s with items := s.items ++ [none] }

/-- Copy constructor `vtkDICOMSequenceItem(const vtkDICOMSequenceItem &o)`:
a new item holding `o.L`; if non-null, `o.L->ReferenceCount++`. -/
def copyItem (s : SeqState) (src : Nat) : SeqState :=
  match s.items[src]? with
  | some p =>
    { s with items := s.items ++ [p], heap := acquireRef s.heap p }
  | none => s

/-- `vtkDICOMSequenceItem::Clear()`: release the reference (deleting the
list when the count reaches zero) and null the pointer. -/
def clearItem (s : SeqState) (i : Nat) : SeqState :=
  match s.items[i]? with
  | some p =>
    let r := releaseRef s.heap p
    { s with heap := r.1, items := s.items.set i none,
             freedLog := s.freedLog ++ r.2.toList }
  | none => s

/-- `vtkDICOMSequenceItem::operator=(const vtkDICOMSequenceItem &o)`:
if `this->L != o.L`, first `o.L->ReferenceCount++` (when non-null), then
release `this->L` (deleting at zero), then `this->L = o.L`; otherwise do
nothing. -/
def assignItem (s : SeqState) (i j : Nat) : SeqState :=
  match s.items[i]?, s.items[j]? with
  | some pi, some pj =>
    if pi = pj then s
    else
      let h1 := acquireRef s.heap pj
      let r := releaseRef h1 pi
      { s with heap := r.1, items := s.items.set i pj,
               freedLog := s.freedLog ++ r.2.toList }
  | _, _ => s

/-- `lookup` over the element chain: the value bound to `tag`, if any. -/
def lookupTag (elems : List (Tag × Value)) (tag : Tag) : Option Value :=
  match elems with
  | [] => none
  | e :: rest => if e.1 = tag then some e.2 else lookupTag rest tag

/-- Insert-or-replace of the binding for `tag` in the element chain. -/
def insertOrReplace (elems : List (Tag × Value)) (tag : Tag) (v : Value) :
    List (Tag × Value) :=
  match elems with
  | [] => [(tag, v)]
  | e :: rest =>
    if e.1 = tag then (tag, v) :: rest
    else e :: insertOrReplace rest tag v

/-- Modelled from the spec: the body of
`vtkDICOMSequenceItem::SetAttributeValue` (and of the `CopyList` helper it
uses) is declared in the header but not among the given sources.  Per spec
§4.3: if no backing list exists, allocate one with reference count 1; if
the list is shared (reference count > 1), make a private clone via
`CopyList` and release one reference to the shared list (count > 1, so no
deletion); then insert or replace the value bound to the tag, keeping
`NumberOfDataElements` equal to the number of elements. -/
def setAttributeValue (s : SeqState) (i : Nat) (tag : Tag) (v : Value) :
    SeqState :=
  match s.items[i]? with
  | none => s
  | some none =>
    let elems := insertOrReplace [] tag v
    { s with heap := s.heap ++ [some ⟨1, elems.length, elems⟩],
             items := s.items.set i (some s.heap.length) }
  | some (some l) =>
    match s.heap[l]? with
    | some (some obj) =>
      if 1 < obj.ReferenceCount then
        let elems := insertOrReplace obj.Elems tag v
        let h1 := s.heap ++ [some ⟨1, elems.length, elems⟩]
        { s with
            heap := h1.set l
              (some { obj with ReferenceCount := obj.ReferenceCount - 1 }),
            items := s.items.set i (some s.heap.length) }
      else
        let elems := insertOrReplace obj.Elems tag v
        let obj2 : ListObj :=
          { obj with NumberOfDataElements := elems.length, Elems := elems }
        { s with heap := s.heap.set l (some obj2) }
    | _ => s

/-- Modelled from the spec: the body of
`vtkDICOMSequenceItem::GetAttributeValue` is declared in the header but not
among the given sources.  Per spec §4.3: look the tag up in the backing
list, mutating nothing. -/
def getAttributeValue (s : SeqState) (i : Nat) (tag : Tag) : Option Value :=
  match s.items[i]? with
  | some (some l) =>
    match s.heap[l]? with
    | some (some obj) => lookupTag obj.Elems tag
    | _ => none
  | _ => none

/-- An iterator (`vtkDICOMDataElementIterator`) is a node pointer: `none`
is the null pointer; `some (l, k)` points into the chain of the list at
address `l` — positions `0 ≤ k < length` are the data nodes in order and
position `length` is the `&Tail` sentinel (`Head.Next` is position 0, which
is the tail sentinel itself when the chain is empty). -/
abbrev DataIterator := Option (Nat × Nat)

/-- `vtkDICOMSequenceItem::GetData()`:
`this->L ? this->L->Head.Next : 0`. -/
def GetData (s : SeqState) (i : Nat) : DataIterator :=
  match s.items[i]? with
  | some (some l) =>
    match s.heap[l]? with
    | some (some _) => some (l, 0)
    | _ => none
  | _ => none

/-- `vtkDICOMSequenceItem::GetDataEnd()`:
`this->L ? &this->L->Tail : 0`. -/
def GetDataEnd (s : SeqState) (i : Nat) : DataIterator :=
  match s.items[i]? with
  | some (some l) =>
    match s.heap[l]? with
    | some (some obj) => some (l, obj.Elems.length)
    | _ => none
  | _ => none

/-- `vtkDICOMSequenceItem::GetNumberOfDataElements()`:
`this->L ? this->L->NumberOfDataElements : 0`. -/
def GetNumberOfDataElements (s : SeqState) (i : Nat) : Nat :=
  match s.items[i]? with
  | some (some l) =>
    match s.heap[l]? with
    | some (some obj) => obj.NumberOfDataElements
    | _ => 0
  | _ => 0

/-- `vtkDICOMSequenceItem::IsEmpty()`: `this->L == 0`. -/
def IsEmpty (s : SeqState) (i : Nat) : Bool :=
  match s.items[i]? with
  | some p => p.isNone
  | none => true

/-- The operations of claim C2: copy-construction, assignment, `Clear`,
and destruction (the destructor body is exactly `Clear()`); plus default
construction to build item populations. -/
inductive SeqOp
  | newOp
  | copyOp (src : Nat)
  | assignOp (i j : Nat)
  | clearOp (i : Nat)
  | destroyOp (i : Nat)
deriving DecidableEq, Repr

/-- Apply one operation. -/
def applyOp (s : SeqState) : SeqOp → SeqState
  | .newOp => newItem s
  | .copyOp src => copyItem s src
  | .assignOp i j => assignItem s i j
  | .clearOp i => clearItem s i
  | .destroyOp i => clearItem s i

/-- Run a sequence of operations. -/
def runOps (s : SeqState) (ops : List SeqOp) : SeqState :=
  ops.foldl applyOp s

/-- Well-formedness of a sequence-item state:
every allocated list's reference count equals the number of items whose
pointer holds its address and is at least 1 (no leaked list), every item
pointer points at an allocated slot, the deletion log has no repeats, and
every logged address is a deleted slot. -/
structure WF (s : SeqState) : Prop where
  rc : ∀ (l : Nat) (obj : ListObj), s.heap[l]? = some (some obj) →
    obj.ReferenceCount = refCount l s.items
  live : ∀ (l : Nat) (obj : ListObj), s.heap[l]? = some (some obj) →
    1 ≤ refCount l s.items
  ptr : ∀ (i l : Nat), s.items[i]? = some (some l) →
    ∃ obj : ListObj, s.heap[l]? = some (some obj)
  freedNd : s.freedLog.Nodup
  freedDead : ∀ l : Nat, l ∈ s.freedLog → s.heap[l]? = some none

/- ### Claim C7: out-of-range accessor behaviour -/

/-- C7: for every index `i` outside `[0, count)`, `GetFile` returns the
absent result and the unchanged state, and `IsDirectory` and `IsSymlink`
return `false` with the unchanged state and zero filesystem queries. -/
theorem dir_out_of_range (fs : FS) (s : DirState) (i : Int)
    (h : i < 0 ∨ (s.NumberOfFiles : Int) ≤ i) :
    GetFile s i = (none, s) ∧ IsDirectory fs s i = (false, s, 0) ∧
    IsSymlink fs s i = (false, s, 0) := by
  refine ⟨?_, ?_, ?_⟩ <;> simp only [GetFile, IsDirectory, IsSymlink, if_pos h]

/-- Witness for C7 at index -1 of an empty lister. -/
theorem dir_out_of_range_witness :
    GetFile (emptyDir "d") (-1) = (none, emptyDir "d") ∧
    IsDirectory ⟨fun _ => none, fun _ => none⟩ (emptyDir "d") (-1) =
      (false, emptyDir "d", 0) ∧
    IsSymlink ⟨fun _ => none, fun _ => none⟩ (emptyDir "d") (-1) =
      (false, emptyDir "d", 0) :=
  dir_out_of_range _ _ _ (Or.inl (by decide))

/- ### Claim C9: the allocation-free empty sequence item -/

/-- C9: for every item whose backing-list pointer is null, `GetData` and
`GetDataEnd` both return the null iterator (so the traversal range is
empty, with begin equal to end), `GetNumberOfDataElements` returns 0 and
`IsEmpty` returns true. -/
theorem seq_empty_item_accessors (s : SeqState) (i : Nat)
    (h : s.items[i]? = some none) :
    GetData s i = none ∧ GetDataEnd s i = none ∧
    GetData s i = GetDataEnd s i ∧
    GetNumberOfDataElements s i = 0 ∧ IsEmpty s i = true := by
  simp [GetData, GetDataEnd, GetNumberOfDataElements, IsEmpty, h]

/-- Witness for C9: a single default-constructed item. -/
theorem seq_empty_item_accessors_witness :
    GetData ⟨[], [none], []⟩ 0 = none ∧
    GetDataEnd ⟨[], [none], []⟩ 0 = none ∧
    GetData ⟨[], [none], []⟩ 0 = GetDataEnd ⟨[], [none], []⟩ 0 ∧
    GetNumberOfDataElements ⟨[], [none], []⟩ 0 = 0 ∧
    IsEmpty ⟨[], [none], []⟩ 0 = true :=
  seq_empty_item_accessors _ _ (by decide)

/- ### Claim C6: the error code is never touched after construction -/

/-- C6: `GetFile`, `IsDirectory` and `IsSymlink` leave the `Error` field
unchanged in every case, and a failed lazy flag-resolution query leaves
the whole state unchanged — the failure is silent, never surfaced as a
new error. -/
theorem dir_error_frame (fs : FS) (s : DirState) (i : Int) :
    (GetFile s i).2.Error = s.Error ∧
    (IsDirectory fs s i).2.1.Error = s.Error ∧
    (IsSymlink fs s i).2.1.Error = s.Error ∧
    (∀ e : Entry, s.Entries[i.toNat]? = some e →
      fs.statDir (joinPath s.Name e.Name) = none →
      (IsDirectory fs s i).2.1 = s) ∧
    (∀ e : Entry, s.Entries[i.toNat]? = some e →
      fs.lstatLnk (joinPath s.Name e.Name) = none →
      (IsSymlink fs s i).2.1 = s) := by
  refine ⟨?_, ?_, ?_, ?_, ?_⟩
  · unfold GetFile; split <;> rfl
  · unfold IsDirectory
    split
    · rfl
    · split
      · rfl
      · split
        · split <;> rfl
        · rfl
  · unfold IsSymlink
    split
    · rfl
    · split
      · rfl
      · split
        · split <;> rfl
        · rfl
  · intro e hE hstat
    unfold IsDirectory
    split
    · rfl
    · simp only [hE]
      split
      · simp only [hstat]
      · rfl
  · intro e hE hstat
    unfold IsSymlink
    split
    · rfl
    · simp only [hE]
      split
      · simp only [hstat]
      · rfl

/-- A filesystem oracle on which every `stat` and `lstat` call fails. -/
def fsAllFail : FS := ⟨fun _ => none, fun _ => none⟩

/-- The lister built by the POSIX constructor over a directory whose
`readdir` yields ".", "..", "a": one entry "a", flags and mask 0. -/
def dirOneEntry : DirState := posixConstruct "d" (Except.ok [".", "..", "a"])

/-- Witness for C6: one entry, unresolved, failing stat. -/
theorem dir_error_frame_witness :
    (IsDirectory fsAllFail dirOneEntry 0).2.1 = dirOneEntry ∧
    (IsSymlink fsAllFail dirOneEntry 0).2.1.Error = dirOneEntry.Error := by
  have h := dir_error_frame fsAllFail dirOneEntry 0
  exact ⟨h.2.2.2.1 ⟨"a", 0, 0⟩ (by decide) rfl, h.2.2.1⟩

/- ### Claim C3: "." and ".." exclusion, and the Win32 branch -/

/-- The enumeration a real Windows directory produces: `FindFirstFileW` on
`dir\*` reports "." and ".." before the ordinary entries. -/
def dotRecords : List FindData :=
  [⟨".", false, true⟩, ⟨"..", false, true⟩, ⟨"a", false, false⟩]

/-- C3 (evidence of the code bug): the Win32 constructor branch adds every
enumerated record to the entry table — its loop body contains no test of
the name — so on an enumeration that reports "." and ".." the table
contains them: `GetFile(0)` is ".".  The POSIX branch filters both names,
and the spec says they are always excluded, so the missing Win32 filter is
a slip in the code. -/
theorem win32_lists_dot_entries :
    (GetFile (win32Construct "d" true (some dotRecords) W32Code.noMoreFiles)
      0).1 = some "." ∧
    (win32Construct "d" true (some dotRecords)
      W32Code.noMoreFiles).NumberOfFiles = 3 := by
  decide

/- ### Claim C5: lazy classification, one query per flag -/

/-- C5 counterexample to the claim as stated: with a failing `stat`, the
first `IsDirectory(0)` call performs one query but leaves the flag
unresolved (the state is unchanged), and the repeated call queries the
filesystem again (1 query, not 0) — so "every repeated call after the
first returns the cached flag without re-querying" is false when the
resolution query fails. -/
theorem lazy_requery_counterexample :
    (IsDirectory fsAllFail dirOneEntry 0).2.2 = 1 ∧
    (IsDirectory fsAllFail dirOneEntry 0).2.1 = dirOneEntry ∧
    (IsDirectory fsAllFail
      ((IsDirectory fsAllFail dirOneEntry 0).2.1) 0).2.2 = 1 := by
  decide

/-- Setting a mask bit makes it resolved: `(m ||| d) &&& d = d`. -/
theorem lor_land_self (m d : Nat) : (m ||| d) &&& d = d := by
  apply Nat.eq_of_testBit_eq
  intro k
  rw [Nat.testBit_land, Nat.testBit_lor]
  cases m.testBit k <;> cases d.testBit k <;> rfl

/-- C5 (amended): for an in-range index whose flag is unresolved, the call
performs exactly one filesystem query (the follow-links `stat` for
`IsDirectory`, the no-follow `lstat` for `IsSymlink`); if that query
succeeds, the flag is resolved and cached, and the repeated call performs
no query, returns the same value and leaves the state unchanged; if the
query fails, the flag stays unresolved — the state is unchanged and the
repeated call queries the filesystem again.  A call on an already resolved
flag performs no query and changes nothing. -/
theorem lazy_one_query (fs : FS) (s : DirState) (i : Int) (e : Entry)
    (h0 : 0 ≤ i) (hi : i < (s.NumberOfFiles : Int))
    (hE : s.Entries[i.toNat]? = some e) :
    (e.Mask &&& TypeDirectory = 0 →
      (IsDirectory fs s i).2.2 = 1 ∧
      (∀ b, fs.statDir (joinPath s.Name e.Name) = some b →
        IsDirectory fs ((IsDirectory fs s i).2.1) i =
          ((IsDirectory fs s i).1, (IsDirectory fs s i).2.1, 0)) ∧
      (fs.statDir (joinPath s.Name e.Name) = none →
        (IsDirectory fs s i).2.1 = s ∧
        (IsDirectory fs ((IsDirectory fs s i).2.1) i).2.2 = 1)) ∧
    (e.Mask &&& TypeDirectory ≠ 0 →
      IsDirectory fs s i = ((e.Flags &&& TypeDirectory != 0), s, 0)) ∧
    (e.Mask &&& TypeSymlink = 0 →
      (IsSymlink fs s i).2.2 = 1 ∧
      (∀ b, fs.lstatLnk (joinPath s.Name e.Name) = some b →
        IsSymlink fs ((IsSymlink fs s i).2.1) i =
          ((IsSymlink fs s i).1, (IsSymlink fs s i).2.1, 0)) ∧
      (fs.lstatLnk (joinPath s.Name e.Name) = none →
        (IsSymlink fs s i).2.1 = s ∧
        (IsSymlink fs ((IsSymlink fs s i).2.1) i).2.2 = 1)) ∧
    (e.Mask &&& TypeSymlink ≠ 0 →
      IsSymlink fs s i = ((e.Flags &&& TypeSymlink != 0), s, 0)) := by
  have hg : ¬(i < 0 ∨ (s.NumberOfFiles : Int) ≤ i) := by omega
  have hlt : i.toNat < s.Entries.length := (List.getElem?_eq_some.mp hE).1
  refine ⟨?_, ?_, ?_, ?_⟩
  · intro hm
    refine ⟨?_, ?_, ?_⟩
    · unfold IsDirectory
      rw [if_neg hg]
      simp only [hE, hm, reduceIte]
      split <;> rfl
    · intro b hb
      let e2 : Entry :=
        ⟨e.Name, if b then e.Flags ||| TypeDirectory else e.Flags,
         e.Mask ||| TypeDirectory⟩
      let s2 : DirState := { s with Entries := s.Entries.set i.toNat e2 }
      have h1 : IsDirectory fs s i = (e2.Flags &&& TypeDirectory != 0, s2, 1) := by
        unfold IsDirectory
        rw [if_neg hg]
        simp only [hE, hm, reduceIte, hb]
      rw [h1]
      unfold IsDirectory
      rw [if_neg hg]
      have hE2 : s2.Entries[i.toNat]? = some e2 :=
        List.getElem?_set_eq_of_lt _ hlt
      simp only [hE2]
      have hm2 : ¬ (e2.Mask &&& TypeDirectory = 0) := by
        show ¬ ((e.Mask ||| TypeDirectory) &&& TypeDirectory = 0)
        rw [lor_land_self]
        decide
      simp only [if_neg hm2]
    · intro hb
      have h1 : IsDirectory fs s i = (e.Flags &&& TypeDirectory != 0, s, 1) := by
        unfold IsDirectory
        rw [if_neg hg]
        simp only [hE, hm, reduceIte, hb]
      rw [h1]
      refine ⟨rfl, ?_⟩
      rw [h1]
  · intro hm
    unfold IsDirectory
    rw [if_neg hg]
    simp only [hE, hm, reduceIte]
  · intro hm
    refine ⟨?_, ?_, ?_⟩
    · unfold IsSymlink
      rw [if_neg hg]
      simp only [hE, hm, reduceIte]
      split <;> rfl
    · intro b hb
      let e2 : Entry :=
        ⟨e.Name, if b then e.Flags ||| TypeSymlink else e.Flags,
         e.Mask ||| TypeSymlink⟩
      let s2 : DirState := { s with Entries := s.Entries.set i.toNat e2 }
      have h1 : IsSymlink fs s i = (e2.Flags &&& TypeSymlink != 0, s2, 1) := by
        unfold IsSymlink
        rw [if_neg hg]
        simp only [hE, hm, reduceIte, hb]
      rw [h1]
      unfold IsSymlink
      rw [if_neg hg]
      have hE2 : s2.Entries[i.toNat]? = some e2 :=
        List.getElem?_set_eq_of_lt _ hlt
      simp only [hE2]
      have hm2 : ¬ (e2.Mask &&& TypeSymlink = 0) := by
        show ¬ ((e.Mask ||| TypeSymlink) &&& TypeSymlink = 0)
        rw [lor_land_self]
        decide
      simp only [if_neg hm2]
    · intro hb
      have h1 : IsSymlink fs s i = (e.Flags &&& TypeSymlink != 0, s, 1) := by
        unfold IsSymlink
        rw [if_neg hg]
        simp only [hE, hm, reduceIte, hb]
      rw [h1]
      refine ⟨rfl, ?_⟩
      rw [h1]
  · intro hm
    unfold IsSymlink
    rw [if_neg hg]
    simp only [hE, hm, reduceIte]

/-- A filesystem oracle on which every `stat` reports a directory and
every `lstat` reports a non-symlink. -/
def fsAllDir : FS := ⟨fun _ => some true, fun _ => some false⟩

/-- Witness for C5 (amended): one unresolved entry, succeeding stat — the
first call queries once and the repeated call is answered from the cache. -/
theorem lazy_one_query_witness :
    (IsDirectory fsAllDir dirOneEntry 0).2.2 = 1 ∧
    IsDirectory fsAllDir ((IsDirectory fsAllDir dirOneEntry 0).2.1) 0 =
      ((IsDirectory fsAllDir dirOneEntry 0).1,
       (IsDirectory fsAllDir dirOneEntry 0).2.1, 0) := by
  have h := lazy_one_query fsAllDir dirOneEntry 0 ⟨"a", 0, 0⟩
    (by decide) (by decide) (by decide)
  exact ⟨(h.1 (by decide)).1, (h.1 (by decide)).2.1 true rfl⟩

/- ### Claim C10: set flag bits are a subset of set mask bits -/

/-- The implicit per-entry invariant: every set flag bit is also a set
mask bit, i.e. `Flags &&& Mask = Flags`. -/
def EntryInv (e : Entry) : Prop := e.Flags &&& e.Mask = e.Flags

instance decEntryInv (e : Entry) : Decidable (EntryInv e) :=
  inferInstanceAs (Decidable (e.Flags &&& e.Mask = e.Flags))

/-- Bit subsets survive enlarging the superset: `a ⊆ b → a ⊆ b ∪ d`. -/
theorem land_lor_of_subset {a b : Nat} (d : Nat) (h : a &&& b = a) :
    a &&& (b ||| d) = a := by
  apply Nat.eq_of_testBit_eq
  intro k
  have hk : (a.testBit k && b.testBit k) = a.testBit k := by
    rw [← Nat.testBit_land, h]
  rw [Nat.testBit_land, Nat.testBit_lor]
  cases hA : a.testBit k <;> cases hB : b.testBit k <;>
    cases hD : d.testBit k <;> simp_all

/-- Bit subsets survive adding the same bits to both sides:
`a ⊆ b → a ∪ d ⊆ b ∪ d`. -/
theorem lor_land_lor_of_subset {a b : Nat} (d : Nat) (h : a &&& b = a) :
    (a ||| d) &&& (b ||| d) = a ||| d := by
  apply Nat.eq_of_testBit_eq
  intro k
  have hk : (a.testBit k && b.testBit k) = a.testBit k := by
    rw [← Nat.testBit_land, h]
  rw [Nat.testBit_land, Nat.testBit_lor, Nat.testBit_lor]
  cases hA : a.testBit k <;> cases hB : b.testBit k <;>
    cases hD : d.testBit k <;> simp_all

/-- `AddEntry` preserves the per-entry invariant when the inserted pair
satisfies it. -/
theorem addEntry_entryInv {s : DirState} {nm : String} {f m : Nat}
    (hs : ∀ e ∈ s.Entries, EntryInv e) (hnew : f &&& m = f) :
    ∀ e ∈ (AddEntry s nm f m).Entries, EntryInv e := by
  intro e he
  unfold AddEntry at he
  simp only [List.mem_append, List.mem_singleton] at he
  rcases he with h | h
  · exact hs e h
  · rw [h]; exact hnew

/-- Folding an `Entries`-invariant-preserving step preserves the
invariant. -/
theorem foldl_entryInv {β : Type} (g : DirState → β → DirState)
    (hg : ∀ s x, (∀ e ∈ s.Entries, EntryInv e) →
      ∀ e ∈ (g s x).Entries, EntryInv e) :
    ∀ (xs : List β) (s : DirState), (∀ e ∈ s.Entries, EntryInv e) →
      ∀ e ∈ (xs.foldl g s).Entries, EntryInv e := by
  intro xs
  induction xs with
  | nil => intro s hs; exact hs
  | cons x rest ih =>
    intro s hs
    exact ih (g s x) (hg s x hs)

/-- C10: every entry of a lister satisfies `Flags &&& Mask = Flags` — the
POSIX constructor inserts flags 0 with mask 0 and the Win32 constructor
inserts flags that are a subset of the full mask, and lazy resolution sets
a flag bit only together with its mask bit, so `IsDirectory` and
`IsSymlink` preserve the invariant over the whole table. -/
theorem entry_flags_subset_mask :
    (∀ (dirname : String) (listing : Except PosixErrno (List String))
       (e : Entry), e ∈ (posixConstruct dirname listing).Entries →
       EntryInv e) ∧
    (∀ (dirname : String) (wideOk : Bool) (found : Option (List FindData))
       (code : W32Code) (e : Entry),
       e ∈ (win32Construct dirname wideOk found code).Entries →
       EntryInv e) ∧
    (∀ (fs : FS) (s : DirState) (i : Int),
       (∀ e ∈ s.Entries, EntryInv e) →
       ∀ e ∈ (IsDirectory fs s i).2.1.Entries, EntryInv e) ∧
    (∀ (fs : FS) (s : DirState) (i : Int),
       (∀ e ∈ s.Entries, EntryInv e) →
       ∀ e ∈ (IsSymlink fs s i).2.1.Entries, EntryInv e) := by
  have hdir : ∀ (fs : FS) (s : DirState) (i : Int),
      (∀ e ∈ s.Entries, EntryInv e) →
      ∀ e ∈ (IsDirectory fs s i).2.1.Entries, EntryInv e := by
    intro fs s i hs
    unfold IsDirectory
    split
    · exact hs
    · split
      · exact hs
      · rename_i e0 hE0
        split
        · split
          · rename_i b hb
            intro e he
            rcases List.mem_or_eq_of_mem_set he with h | h
            · exact hs e h
            · rw [h]
              have h0 : EntryInv e0 := hs e0 (List.getElem?_mem hE0)
              unfold EntryInv at h0 ⊢
              cases b
              · simp only [Bool.false_eq_true, reduceIte]
                exact land_lor_of_subset _ h0
              · simp only [reduceIte]
                exact lor_land_lor_of_subset _ h0
          · exact hs
        · exact hs
  have hlnk : ∀ (fs : FS) (s : DirState) (i : Int),
      (∀ e ∈ s.Entries, EntryInv e) →
      ∀ e ∈ (IsSymlink fs s i).2.1.Entries, EntryInv e := by
    intro fs s i hs
    unfold IsSymlink
    split
    · exact hs
    · split
      · exact hs
      · rename_i e0 hE0
        split
        · split
          · rename_i b hb
            intro e he
            rcases List.mem_or_eq_of_mem_set he with h | h
            · exact hs e h
            · rw [h]
              have h0 : EntryInv e0 := hs e0 (List.getElem?_mem hE0)
              unfold EntryInv at h0 ⊢
              cases b
              · simp only [Bool.false_eq_true, reduceIte]
                exact land_lor_of_subset _ h0
              · simp only [reduceIte]
                exact lor_land_lor_of_subset _ h0
          · exact hs
        · exact hs
  refine ⟨?_, ?_, hdir, hlnk⟩
  · intro dirname listing e he
    match listing with
    | .error err =>
      simp [posixConstruct, emptyDir] at he
    | .ok names =>
      revert he
      refine fun he => foldl_entryInv _ ?_ names (emptyDir dirname)
        (by intro e h; simp [emptyDir] at h) e he
      intro s x hs
      split
      · exact addEntry_entryInv hs (by decide)
      · exact hs
  · intro dirname wideOk found code e he
    match wideOk, found with
    | false, _ => simp [win32Construct, emptyDir] at he
    | true, none => simp [win32Construct, emptyDir] at he
    | true, some records =>
      simp only [win32Construct, Bool.true_eq_false, reduceIte] at he
      revert he
      refine fun he => foldl_entryInv _ ?_ records (emptyDir dirname)
        (by intro e h; simp [emptyDir] at h) e he
      intro s x hs
      refine addEntry_entryInv hs ?_
      cases x.isSymlinkReparse <;> cases x.isDirectory <;> decide

/-- Witness for C10: the invariant concluded for the resolved entry of the
one-entry lister after a successful lazy `IsDirectory` resolution. -/
theorem entry_flags_subset_mask_witness : EntryInv ⟨"a", 1, 1⟩ := by
  have h := entry_flags_subset_mask.2.2.1 fsAllDir dirOneEntry 0 (by decide)
  exact h ⟨"a", 1, 1⟩ (by decide)

/- ### Claim C4: growth of the entry table -/

/-- A power of two and its predecessor share no bits. -/
theorem pred_land_two_pow (k : Nat) : (2 ^ k - 1) &&& 2 ^ k = 0 := by
  apply Nat.eq_of_testBit_eq
  intro i
  rw [Nat.testBit_land, Nat.zero_testBit]
  rcases eq_or_ne i k with rfl | hne
  · have h : (2 ^ i - 1) < 2 ^ i :=
      Nat.sub_lt (Nat.pos_pow_of_pos i (by norm_num)) (by norm_num)
    rw [Nat.testBit_lt_two_pow h, Bool.false_and]
  · rw [Nat.testBit_two_pow]
    simp [Ne.symm hne]

/-- The code's doubling test recognises exactly the powers of two:
if `(n-1) &&& n = 0` for `n ≥ 1` then `n` is a power of two. -/
theorem pow2_of_pred_land_self {n : Nat} (h1 : 1 ≤ n)
    (h2 : (n - 1) &&& n = 0) : ∃ k, n = 2 ^ k := by
  refine ⟨Nat.log 2 n, ?_⟩
  by_contra hne
  have hlow : 2 ^ Nat.log 2 n ≤ n := Nat.pow_log_le_self 2 (by omega)
  have hhigh : n < 2 ^ (Nat.log 2 n + 1) :=
    Nat.lt_pow_succ_log_self (by norm_num) n
  set k := Nat.log 2 n with hk
  have hp : (2:Nat) ^ (k + 1) = 2 * 2 ^ k := by rw [pow_succ]; ring
  have hlt : 2 ^ k < n := lt_of_le_of_ne hlow fun h => hne h.symm
  have hd1 : n / 2 ^ k = 1 :=
    Nat.div_eq_of_lt_le (by omega) (by omega)
  have hd2 : (n - 1) / 2 ^ k = 1 :=
    Nat.div_eq_of_lt_le (by omega) (by omega)
  have hb1 : n.testBit k = true := by
    rw [Nat.testBit_to_div_mod, hd1]
    rfl
  have hb2 : (n - 1).testBit k = true := by
    rw [Nat.testBit_to_div_mod, hd2]
    rfl
  have hand : ((n - 1) &&& n).testBit k = true := by
    rw [Nat.testBit_land, hb1, hb2]
    rfl
  rw [h2, Nat.zero_testBit] at hand
  exact Bool.false_ne_true hand

/-- The reachability invariant of the entry table: the count mirrors the
table, and either nothing is allocated yet or the capacity is a power of
two `≥ 4`, at least the count, and (once past the initial allocation)
less than twice the count. -/
def GrowInv (s : DirState) : Prop :=
  s.NumberOfFiles = s.Entries.length ∧
  ((s.Capacity = 0 ∧ s.NumberOfFiles = 0) ∨
   (∃ k : Nat, s.Capacity = 2 ^ (k + 2) ∧ s.NumberOfFiles ≤ s.Capacity ∧
     (s.Capacity = 4 ∨ s.Capacity < 2 * s.NumberOfFiles)))

/-- Under the invariant (with at least one entry), the code's doubling
test `n >= 4 && ((n-1) & n) == 0` holds exactly when the current count is
a power of two equal to the current capacity. -/
theorem growCond_iff (s : DirState) (h : GrowInv s)
    (hn : 1 ≤ s.NumberOfFiles) :
    (4 ≤ s.NumberOfFiles ∧
     (s.NumberOfFiles - 1) &&& s.NumberOfFiles = 0) ↔
    ((∃ k, s.NumberOfFiles = 2 ^ k) ∧
     s.NumberOfFiles = s.Capacity) := by
  obtain ⟨hlen, hcap⟩ := h
  rcases hcap with ⟨h0, hn0⟩ | ⟨k, hc, hle, halt⟩
  · omega
  constructor
  · rintro ⟨h4, hland⟩
    obtain ⟨j, hj⟩ := pow2_of_pred_land_self (by omega) hland
    refine ⟨⟨j, hj⟩, ?_⟩
    rcases halt with hc4 | hlt2
    · omega
    · have h1 : (2:Nat) ^ (k + 2) < 2 ^ (j + 1) := by
        rw [← hc]
        calc s.Capacity < 2 * s.NumberOfFiles := hlt2
          _ = 2 ^ (j + 1) := by rw [hj, pow_succ]; ring
      have h2 : k + 2 < j + 1 :=
        (Nat.pow_lt_pow_iff_right (by norm_num)).mp h1
      have h3 : (2:Nat) ^ (k + 2) ≤ 2 ^ j :=
        Nat.pow_le_pow_right (by norm_num) (by omega)
      omega
  · rintro ⟨⟨j, hj⟩, heq⟩
    have h4 : (4:Nat) ≤ 2 ^ (k + 2) := by
      calc (4:Nat) = 2 ^ 2 := by norm_num
        _ ≤ 2 ^ (k + 2) := Nat.pow_le_pow_right (by norm_num) (by omega)
    refine ⟨by omega, ?_⟩
    rw [heq, hc]
    exact pred_land_two_pow (k + 2)

/-- `AddEntry` preserves the reachability invariant. -/
theorem addEntry_growInv (s : DirState) (nm : String) (f m : Nat)
    (h : GrowInv s) : GrowInv (AddEntry s nm f m) := by
  obtain ⟨hlen, hcap⟩ := h
  rcases hcap with ⟨h0, hn0⟩ | ⟨k, hc, hle, halt⟩
  · have hcap4 : (AddEntry s nm f m).Capacity = 4 := by
      simp only [AddEntry]
      rw [if_pos h0]
    have hcount1 : (AddEntry s nm f m).NumberOfFiles =
        s.NumberOfFiles + 1 := rfl
    have hlen1 : (AddEntry s nm f m).Entries.length =
        s.Entries.length + 1 := by
      simp [AddEntry]
    refine ⟨by omega, Or.inr ⟨0, ?_, ?_, Or.inl ?_⟩⟩
    · rw [hcap4]; norm_num
    · rw [hcap4, hcount1]; omega
    · rw [hcap4]
  · have hcap0 : s.Capacity ≠ 0 := by
      rw [hc]; positivity
    have h4le : (4:Nat) ≤ 2 ^ (k + 2) := by
      calc (4:Nat) = 2 ^ 2 := by norm_num
        _ ≤ 2 ^ (k + 2) := Nat.pow_le_pow_right (by norm_num) (by omega)
    by_cases hcond : 4 ≤ s.NumberOfFiles ∧
        (s.NumberOfFiles - 1) &&& s.NumberOfFiles = 0
    · have hiff := growCond_iff s ⟨hlen, Or.inr ⟨k, hc, hle, halt⟩⟩
        (by omega)
      obtain ⟨⟨j, hj⟩, heq⟩ := hiff.mp hcond
      have hj2 : 2 ≤ j := by
        have h1 : (2:Nat) ^ 2 ≤ 2 ^ j := by
          have h2 : (2:Nat) ^ 2 = 4 := by norm_num
          rw [h2, ← hj]
          exact hcond.1
        exact (Nat.pow_le_pow_iff_right (by norm_num)).mp h1
      refine ⟨?_, Or.inr ⟨j - 1, ?_, ?_, Or.inr ?_⟩⟩ <;>
        simp only [AddEntry, if_neg hcap0, if_pos hcond,
          List.length_append, List.length_cons, List.length_nil]
      · omega
      · have hje : j - 1 + 2 = j + 1 := by omega
        rw [hje, hj, pow_succ]
      · omega
      · omega
    · refine ⟨?_, Or.inr ⟨k, ?_, ?_, ?_⟩⟩ <;>
        simp only [AddEntry, if_neg hcap0, if_neg hcond,
          List.length_append, List.length_cons, List.length_nil]
      · omega
      · exact hc
      · -- the count stays below the capacity: otherwise the doubling
        -- test would have fired
        have hlt : s.NumberOfFiles < s.Capacity := by
          rcases Nat.lt_or_ge s.NumberOfFiles s.Capacity with hx | hx
          · exact hx
          · exfalso
            apply hcond
            have heq : s.NumberOfFiles = s.Capacity := by omega
            refine ⟨by omega, ?_⟩
            rw [heq, hc]
            exact pred_land_two_pow (k + 2)
        omega
      · rcases halt with hx | hx
        · exact Or.inl hx
        · exact Or.inr (by omega)

/-- A run of `AddEntry` calls from a given state. -/
def runAdd (s : DirState) (xs : List (String × Nat × Nat)) : DirState :=
  xs.foldl (fun t x => AddEntry t x.1 x.2.1 x.2.2) s

/-- The table after a run: all entries appended in order, count summed. -/
theorem runAdd_spec (xs : List (String × Nat × Nat)) (s : DirState) :
    (runAdd s xs).Entries =
      s.Entries ++ xs.map (fun x => (⟨x.1, x.2.1, x.2.2⟩ : Entry)) ∧
    (runAdd s xs).NumberOfFiles = s.NumberOfFiles + xs.length ∧
    (runAdd s xs).Name = s.Name ∧ (runAdd s xs).Error = s.Error := by
  induction xs generalizing s with
  | nil => simp [runAdd]
  | cons x rest ih =>
    have h := ih (AddEntry s x.1 x.2.1 x.2.2)
    have hA : (AddEntry s x.1 x.2.1 x.2.2).Entries =
        s.Entries ++ [⟨x.1, x.2.1, x.2.2⟩] := rfl
    have hN : (AddEntry s x.1 x.2.1 x.2.2).NumberOfFiles =
        s.NumberOfFiles + 1 := rfl
    have hNm : (AddEntry s x.1 x.2.1 x.2.2).Name = s.Name := rfl
    have hErr : (AddEntry s x.1 x.2.1 x.2.2).Error = s.Error := rfl
    refine ⟨?_, ?_, ?_, ?_⟩
    · show (runAdd (AddEntry s x.1 x.2.1 x.2.2) rest).Entries = _
      rw [h.1, hA, List.append_assoc]
      rfl
    · show (runAdd (AddEntry s x.1 x.2.1 x.2.2) rest).NumberOfFiles = _
      rw [h.2.1, hN]
      simp only [List.length_cons]
      omega
    · show (runAdd (AddEntry s x.1 x.2.1 x.2.2) rest).Name = _
      rw [h.2.2.1, hNm]
    · show (runAdd (AddEntry s x.1 x.2.1 x.2.2) rest).Error = _
      rw [h.2.2.2, hErr]

/-- A run of `AddEntry` calls preserves the reachability invariant. -/
theorem runAdd_growInv (xs : List (String × Nat × Nat)) (s : DirState)
    (h : GrowInv s) : GrowInv (runAdd s xs) := by
  induction xs generalizing s with
  | nil => exact h
  | cons x rest ih =>
    exact ih (AddEntry s x.1 x.2.1 x.2.2) (addEntry_growInv s x.1 x.2.1 x.2.2 h)

/-- C4: after `N` calls to `AddEntry` with names `n1..nN` (and arbitrary
flags/masks), the table holds exactly `N` entries in insertion order and
`GetFile(i)` returns the `(i+1)`-th inserted name for every `i < N`;
the count never exceeds the capacity; the capacity becomes 4 at the first
insertion; and at each subsequent insertion the capacity doubles exactly
when the count about to be inserted over is a power of two equal to the
current capacity. -/
theorem addEntry_growth (dirname : String)
    (xs : List (String × Nat × Nat)) :
    (runAdd (emptyDir dirname) xs).NumberOfFiles = xs.length ∧
    (runAdd (emptyDir dirname) xs).Entries.map Entry.Name =
      xs.map Prod.fst ∧
    (runAdd (emptyDir dirname) xs).NumberOfFiles ≤
      (runAdd (emptyDir dirname) xs).Capacity ∧
    (∀ i : Nat, i < xs.length →
      (GetFile (runAdd (emptyDir dirname) xs) (i : Int)).1 =
        xs[i]?.map Prod.fst) ∧
    (∀ x : String × Nat × Nat,
      (runAdd (emptyDir dirname) [x]).Capacity = 4) ∧
    (∀ (ys : List (String × Nat × Nat)) (nm : String) (f m : Nat),
      ys ≠ [] →
      (((∃ k, (runAdd (emptyDir dirname) ys).NumberOfFiles = 2 ^ k) ∧
        (runAdd (emptyDir dirname) ys).NumberOfFiles =
          (runAdd (emptyDir dirname) ys).Capacity) →
        (AddEntry (runAdd (emptyDir dirname) ys) nm f m).Capacity =
          2 * (runAdd (emptyDir dirname) ys).Capacity) ∧
      ((¬ ((∃ k, (runAdd (emptyDir dirname) ys).NumberOfFiles = 2 ^ k) ∧
        (runAdd (emptyDir dirname) ys).NumberOfFiles =
          (runAdd (emptyDir dirname) ys).Capacity)) →
        (AddEntry (runAdd (emptyDir dirname) ys) nm f m).Capacity =
          (runAdd (emptyDir dirname) ys).Capacity)) := by
  have hspec := runAdd_spec xs (emptyDir dirname)
  have hinv := runAdd_growInv xs (emptyDir dirname)
    ⟨rfl, Or.inl ⟨rfl, rfl⟩⟩
  have hcount : (runAdd (emptyDir dirname) xs).NumberOfFiles = xs.length := by
    rw [hspec.2.1]; simp [emptyDir]
  have hentries : (runAdd (emptyDir dirname) xs).Entries =
      xs.map (fun x => (⟨x.1, x.2.1, x.2.2⟩ : Entry)) := by
    rw [hspec.1]; simp [emptyDir]
  refine ⟨hcount, ?_, ?_, ?_, ?_, ?_⟩
  · rw [hentries, List.map_map]
    rfl
  · rcases hinv.2 with ⟨h0, hn0⟩ | ⟨k, hc, hle, halt⟩
    · omega
    · exact hle
  · intro i hi
    have hg : ¬ ((i : Int) < 0 ∨
        ((runAdd (emptyDir dirname) xs).NumberOfFiles : Int) ≤ (i : Int)) := by
      rw [hcount]; omega
    unfold GetFile
    rw [if_neg hg, hentries]
    have ht : (i : Int).toNat = i := Int.toNat_natCast i
    rw [ht, List.getElem?_map]
    rcases hx : xs[i]? with _ | x
    · rfl
    · rfl
  · intro x
    rfl
  · intro ys nm f m hne
    have hyinv := runAdd_growInv ys (emptyDir dirname)
      ⟨rfl, Or.inl ⟨rfl, rfl⟩⟩
    have hycount : (runAdd (emptyDir dirname) ys).NumberOfFiles =
        ys.length := by
      rw [(runAdd_spec ys (emptyDir dirname)).2.1]; simp [emptyDir]
    have hn1 : 1 ≤ (runAdd (emptyDir dirname) ys).NumberOfFiles := by
      rw [hycount]
      cases ys with
      | nil => exact absurd rfl hne
      | cons a b => simp
    have hiff := growCond_iff _ hyinv hn1
    have hcap0 : (runAdd (emptyDir dirname) ys).Capacity ≠ 0 := by
      rcases hyinv.2 with ⟨h0, hn0⟩ | ⟨k, hc, hle, halt⟩
      · omega
      · rw [hc]; positivity
    constructor
    · intro hdbl
      have hcond := hiff.mpr hdbl
      have heq := hdbl.2
      simp only [AddEntry, if_neg hcap0, if_pos hcond]
      omega
    · intro hndbl
      have hcond : ¬ (4 ≤ (runAdd (emptyDir dirname) ys).NumberOfFiles ∧
          ((runAdd (emptyDir dirname) ys).NumberOfFiles - 1) &&&
            (runAdd (emptyDir dirname) ys).NumberOfFiles = 0) := by
        intro hx
        exact hndbl (hiff.mp hx)
      simp only [AddEntry, if_neg hcap0, if_neg hcond]

/-- Witness for C4: five insertions crossing the 4→8 boundary. -/
theorem addEntry_growth_witness :
    (runAdd (emptyDir "d")
      [("a", 0, 0), ("b", 0, 0), ("c", 0, 0), ("e", 0, 0), ("f", 0, 0)]
      ).NumberOfFiles = 5 ∧
    (GetFile (runAdd (emptyDir "d")
      [("a", 0, 0), ("b", 0, 0), ("c", 0, 0), ("e", 0, 0), ("f", 0, 0)])
      ((4 : Nat) : Int)).1 = some "f" ∧
    (AddEntry (runAdd (emptyDir "d")
      [("a", 0, 0), ("b", 0, 0), ("c", 0, 0), ("e", 0, 0)]) "f" 0 0
      ).Capacity =
      2 * (runAdd (emptyDir "d")
        [("a", 0, 0), ("b", 0, 0), ("c", 0, 0), ("e", 0, 0)]).Capacity := by
  have h := addEntry_growth "d"
    [("a", 0, 0), ("b", 0, 0), ("c", 0, 0), ("e", 0, 0), ("f", 0, 0)]
  have h4 := addEntry_growth "d"
    [("a", 0, 0), ("b", 0, 0), ("c", 0, 0), ("e", 0, 0)]
  refine ⟨h.1, ?_, ?_⟩
  · have hg := h.2.2.2.1 4 (by norm_num)
    rw [hg]
    rfl
  · exact ((h4.2.2.2.2.2 [("a", 0, 0), ("b", 0, 0), ("c", 0, 0), ("e", 0, 0)]
      "f" 0 0 (by simp)).1 (by exact ⟨⟨2, by decide⟩, by decide⟩))

/- ### Sequence-item helper lemmas -/

/-- `refCount` distributes over append. -/
theorem refCount_append (l : Nat) (xs ys : List (Option Nat)) :
    refCount l (xs ++ ys) = refCount l xs + refCount l ys := by
  induction xs with
  | nil => simp [refCount]
  | cons p ps ih =>
    simp only [List.cons_append, refCount, List.append_eq]
    rw [ih]
    omega

/-- How `refCount` changes when one position is overwritten. -/
theorem refCount_set (l : Nat) (xs : List (Option Nat)) (i : Nat)
    (p q : Option Nat) (h : xs[i]? = some p) :
    refCount l (xs.set i q) + (if p = some l then 1 else 0) =
    refCount l xs + (if q = some l then 1 else 0) := by
  induction xs generalizing i with
  | nil => simp at h
  | cons a as ih =>
    cases i with
    | zero =>
      simp only [List.getElem?_cons_zero, Option.some_inj] at h
      subst h
      simp only [List.set_cons_zero, refCount]
      split_ifs <;> omega
    | succ n =>
      simp only [List.getElem?_cons_succ] at h
      simp only [List.set_cons_succ, refCount]
      have := ih n h
      omega

/-- An item pointing at `l` makes `refCount l` positive. -/
theorem refCount_pos {xs : List (Option Nat)} {i l : Nat}
    (h : xs[i]? = some (some l)) : 1 ≤ refCount l xs := by
  induction xs generalizing i with
  | nil => simp at h
  | cons a as ih =>
    cases i with
    | zero =>
      simp only [List.getElem?_cons_zero, Option.some_inj] at h
      subst h
      simp [refCount]
    | succ n =>
      simp only [List.getElem?_cons_succ] at h
      have := ih h
      simp only [refCount]
      omega

/-- Insert-or-replace binds the tag to the new value. -/
theorem lookupTag_insertOrReplace (es : List (Tag × Value)) (t : Tag)
    (v : Value) : lookupTag (insertOrReplace es t v) t = some v := by
  induction es with
  | nil => simp [insertOrReplace, lookupTag]
  | cons e rest ih =>
    by_cases h : e.1 = t
    · simp [insertOrReplace, h, lookupTag]
    · simp [insertOrReplace, h, lookupTag, ih]

/- ### Claim C1: copy-on-write of SetAttributeValue -/

/-- C1: if item `a` holds tag `t` bound to `v1` and item `b` is
copy-constructed from `a` (so `b` shares `a`'s backing list), then after
`a.SetAttributeValue(t, v2)` the copy `b` still reads `v1` — the mutation
is applied to a private clone, never to the shared list — while `a`
itself reads `v2`.  (`b` is the item appended by the copy constructor, at
index `s.items.length`.) -/
theorem seq_copy_on_write (s : SeqState) (a l : Nat) (obj : ListObj)
    (t : Tag) (v1 v2 : Value)
    (ha : s.items[a]? = some (some l))
    (hl : s.heap[l]? = some (some obj))
    (hrc : 1 ≤ obj.ReferenceCount)
    (hv : getAttributeValue s a t = some v1) :
    getAttributeValue (setAttributeValue (copyItem s a) a t v2)
      s.items.length t = some v1 ∧
    getAttributeValue (setAttributeValue (copyItem s a) a t v2) a t =
      some v2 := by
  have hlenA : a < s.items.length := (List.getElem?_eq_some.mp ha).1
  have hlenL : l < s.heap.length := (List.getElem?_eq_some.mp hl).1
  have hv' : lookupTag obj.Elems t = some v1 := by
    unfold getAttributeValue at hv
    simp only [ha, hl] at hv
    exact hv
  let obj1 : ListObj := { obj with ReferenceCount := obj.ReferenceCount + 1 }
  let s1 : SeqState :=
    { s with items := s.items ++ [some l],
             heap := s.heap.set l (some obj1) }
  have hs1 : copyItem s a = s1 := by
    unfold copyItem acquireRef
    simp only [ha, hl]
  have h1a : s1.items[a]? = some (some l) := by
    show (s.items ++ [some l])[a]? = _
    rw [List.getElem?_append_left hlenA]
    exact ha
  have h1l : s1.heap[l]? = some (some obj1) := by
    show (s.heap.set l (some obj1))[l]? = _
    exact List.getElem?_set_eq_of_lt _ hlenL
  let elems2 := insertOrReplace obj.Elems t v2
  let objNew : ListObj := ⟨1, elems2.length, elems2⟩
  let obj2 : ListObj := { obj1 with ReferenceCount := obj1.ReferenceCount - 1 }
  let s2 : SeqState :=
    { s1 with heap := (s1.heap ++ [some objNew]).set l (some obj2),
              items := s1.items.set a (some s1.heap.length) }
  have hgt : 1 < obj1.ReferenceCount := by
    show 1 < obj.ReferenceCount + 1
    omega
  have hs2 : setAttributeValue s1 a t v2 = s2 := by
    unfold setAttributeValue
    simp only [h1a, h1l]
    rw [if_pos hgt]
  rw [hs1, hs2]
  constructor
  · have hBi : s2.items[s.items.length]? = some (some l) := by
      show ((s.items ++ [some l]).set a _)[s.items.length]? = _
      rw [List.getElem?_set_ne (by omega : a ≠ s.items.length)]
      exact List.getElem?_concat_length _ _
    have hBl : s2.heap[l]? = some (some obj2) := by
      show ((s1.heap ++ [some objNew]).set l (some obj2))[l]? = _
      apply List.getElem?_set_eq_of_lt
      have : s1.heap.length = s.heap.length := List.length_set _ _ _
      simp only [List.length_append, List.length_cons, List.length_nil, this]
      omega
    unfold getAttributeValue
    simp only [hBi, hBl]
    exact hv'
  · have hAi : s2.items[a]? = some (some s1.heap.length) := by
      show ((s.items ++ [some l]).set a _)[a]? = _
      apply List.getElem?_set_eq_of_lt
      simp only [List.length_append, List.length_cons, List.length_nil]
      omega
    have hlneq : l ≠ s1.heap.length := by
      have : s1.heap.length = s.heap.length := List.length_set _ _ _
      omega
    have hAl : s2.heap[s1.heap.length]? = some (some objNew) := by
      show ((s1.heap ++ [some objNew]).set l (some obj2))[s1.heap.length]? = _
      rw [List.getElem?_set_ne hlneq]
      exact List.getElem?_concat_length _ _
    unfold getAttributeValue
    simp only [hAi, hAl]
    exact lookupTag_insertOrReplace obj.Elems t v2

/-- Witness for C1: one item, one shared list with `{(7, 10)}`, copy then
overwrite tag 7 with 20 — the copy still reads 10, the original reads 20. -/
theorem seq_copy_on_write_witness :
    getAttributeValue
      (setAttributeValue
        (copyItem ⟨[some ⟨1, 1, [(7, 10)]⟩], [some 0], []⟩ 0) 0 7 20)
      1 7 = some 10 ∧
    getAttributeValue
      (setAttributeValue
        (copyItem ⟨[some ⟨1, 1, [(7, 10)]⟩], [some 0], []⟩ 0) 0 7 20)
      0 7 = some 20 :=
  seq_copy_on_write ⟨[some ⟨1, 1, [(7, 10)]⟩], [some 0], []⟩ 0 0
    ⟨1, 1, [(7, 10)]⟩ 7 10 20 rfl rfl (by decide) (by decide)

/- ### Claim C8: assignment reference-counting -/

/-- C8: assigning item `j` (list `lj`) into item `i` (a different list
`li`) increments `lj`'s reference count by exactly one and decrements
`li`'s — deleting `li`'s list when that count reaches zero (count 1
before the assignment) and leaving it allocated with the decremented
count otherwise — and makes `i` point at `lj`; while any assignment
between items holding the identical list pointer (self-assignment
included) changes nothing at all. -/
theorem seq_assign_refcount (s : SeqState) (i j li lj : Nat)
    (oi oj : ListObj)
    (hi : s.items[i]? = some (some li))
    (hj : s.items[j]? = some (some lj))
    (hne : li ≠ lj)
    (hoi : s.heap[li]? = some (some oi))
    (hoj : s.heap[lj]? = some (some oj)) :
    ((assignItem s i j).heap[lj]? =
      some (some { oj with ReferenceCount := oj.ReferenceCount + 1 })) ∧
    (oi.ReferenceCount = 1 →
      (assignItem s i j).heap[li]? = some none ∧
      (assignItem s i j).freedLog = s.freedLog ++ [li]) ∧
    (oi.ReferenceCount ≠ 1 →
      (assignItem s i j).heap[li]? =
        some (some { oi with ReferenceCount := oi.ReferenceCount - 1 }) ∧
      (assignItem s i j).freedLog = s.freedLog) ∧
    ((assignItem s i j).items[i]? = some (some lj)) ∧
    (∀ (k m : Nat) (p : Option Nat), s.items[k]? = some p →
      s.items[m]? = some p → assignItem s k m = s) := by
  have hlenI : i < s.items.length := (List.getElem?_eq_some.mp hi).1
  have hlenLi : li < s.heap.length := (List.getElem?_eq_some.mp hoi).1
  have hlenLj : lj < s.heap.length := (List.getElem?_eq_some.mp hoj).1
  have hpne : (some li : Option Nat) ≠ some lj := by simp [hne]
  have hnoop : ∀ (k m : Nat) (p : Option Nat), s.items[k]? = some p →
      s.items[m]? = some p → assignItem s k m = s := by
    intro k m p hk hm
    unfold assignItem
    simp only [hk, hm]
    simp
  let ojInc : ListObj := { oj with ReferenceCount := oj.ReferenceCount + 1 }
  have hacq : acquireRef s.heap (some lj) = s.heap.set lj (some ojInc) := by
    unfold acquireRef
    simp only [hoj]
  have h1li : (s.heap.set lj (some ojInc))[li]? = some (some oi) := by
    rw [List.getElem?_set_ne (Ne.symm hne)]
    exact hoi
  by_cases hrc : oi.ReferenceCount = 1
  · have hrel : releaseRef (s.heap.set lj (some ojInc)) (some li) =
        ((s.heap.set lj (some ojInc)).set li none, some li) := by
      unfold releaseRef
      simp only [h1li]
      rw [if_pos hrc]
    have hmain : assignItem s i j =
        { s with heap := (s.heap.set lj (some ojInc)).set li none,
                 items := s.items.set i (some lj),
                 freedLog := s.freedLog ++ [li] } := by
      unfold assignItem
      simp only [hi, hj]
      rw [if_neg hpne, hacq, hrel]
      rfl
    rw [hmain]
    refine ⟨?_, fun _ => ⟨?_, rfl⟩, fun h => absurd hrc h, ?_, hnoop⟩
    · rw [List.getElem?_set_ne hne]
      exact List.getElem?_set_eq_of_lt _ hlenLj
    · exact List.getElem?_set_eq_of_lt _
        (by rw [List.length_set]; exact hlenLi)
    · exact List.getElem?_set_eq_of_lt _ hlenI
  · let oiDec : ListObj := { oi with ReferenceCount := oi.ReferenceCount - 1 }
    have hrel : releaseRef (s.heap.set lj (some ojInc)) (some li) =
        ((s.heap.set lj (some ojInc)).set li (some oiDec), none) := by
      unfold releaseRef
      simp only [h1li]
      rw [if_neg hrc]
    have hmain : assignItem s i j =
        { s with heap := (s.heap.set lj (some ojInc)).set li (some oiDec),
                 items := s.items.set i (some lj),
                 freedLog := s.freedLog ++ [] } := by
      unfold assignItem
      simp only [hi, hj]
      rw [if_neg hpne, hacq, hrel]
      rfl
    rw [hmain]
    refine ⟨?_, fun h => absurd h hrc, fun _ => ⟨?_, by simp⟩, ?_, hnoop⟩
    · rw [List.getElem?_set_ne hne]
      exact List.getElem?_set_eq_of_lt _ hlenLj
    · exact List.getElem?_set_eq_of_lt _
        (by rw [List.length_set]; exact hlenLi)
    · exact List.getElem?_set_eq_of_lt _ hlenI

/-- Witness for C8: two items with their own single-reference lists;
assigning the second into the first frees the first list (count was 1)
and bumps the second list's count to 2. -/
theorem seq_assign_refcount_witness :
    (assignItem ⟨[some ⟨1, 0, []⟩, some ⟨1, 0, []⟩],
      [some 0, some 1], []⟩ 0 1).heap[1]? = some (some ⟨2, 0, []⟩) ∧
    (assignItem ⟨[some ⟨1, 0, []⟩, some ⟨1, 0, []⟩],
      [some 0, some 1], []⟩ 0 1).heap[0]? = some none ∧
    (assignItem ⟨[some ⟨1, 0, []⟩, some ⟨1, 0, []⟩],
      [some 0, some 1], []⟩ 0 1).freedLog = [0] := by
  have h := seq_assign_refcount
    ⟨[some ⟨1, 0, []⟩, some ⟨1, 0, []⟩], [some 0, some 1], []⟩
    0 1 0 1 ⟨1, 0, []⟩ ⟨1, 0, []⟩ rfl rfl (by decide) rfl rfl
  refine ⟨h.1, (h.2.1 rfl).1, ?_⟩
  have h2 := (h.2.1 rfl).2
  simpa using h2

/- ### Claim C2: reference lifetime of the shared backing list -/

/-- Reading an index of `xs ++ [y]` yields an element of `xs` or `y`. -/
theorem getElem?_append_singleton {α : Type} {xs : List α} {y a : α}
    {i : Nat} (h : (xs ++ [y])[i]? = some a) : xs[i]? = some a ∨ a = y := by
  rcases Nat.lt_trichotomy i xs.length with hlt | heq | hgt
  · left
    rw [← List.getElem?_append_left hlt]
    exact h
  · right
    subst heq
    rw [List.getElem?_concat_length] at h
    exact (Option.some_inj.mp h).symm
  · exfalso
    have hge : (xs ++ [y]).length ≤ i := by
      simp only [List.length_append, List.length_cons, List.length_nil]
      omega
    rw [List.getElem?_eq_none hge] at h
    cases h

/-- Appending a fresh element keeps a list duplicate-free. -/
theorem nodup_concat {α : Type} {xs : List α} {a : α} (h1 : xs.Nodup)
    (h2 : a ∉ xs) : (xs ++ [a]).Nodup := by
  rw [List.nodup_append]
  refine ⟨h1, List.nodup_singleton a, ?_⟩
  intro b hb hba
  rw [List.mem_singleton] at hba
  subst hba
  exact h2 hb

/-- Core release lemma: item `i` points at the live list `li` (object
`obj_i`) and is retargeted to `pNew ≠ some li`; `heapMid` is the heap
after the optional acquire on the new target, which already matches the
retargeted items everywhere except at `li`.  Releasing `li` preserves
well-formedness: the list is deleted (and logged) exactly when its count
was 1, and merely decremented otherwise. -/
theorem wf_core (s : SeqState) (i li : Nat) (obj_i : ListObj)
    (pNew : Option Nat) (heapMid : List (Option ListObj))
    (h : WF s)
    (hi : s.items[i]? = some (some li))
    (hobj : s.heap[li]? = some (some obj_i))
    (hMidLi : heapMid[li]? = some (some obj_i))
    (hpne : pNew ≠ some li)
    (hA : ∀ (l' : Nat) (obj' : ListObj), l' ≠ li →
      heapMid[l']? = some (some obj') →
      obj'.ReferenceCount = refCount l' (s.items.set i pNew) ∧
      1 ≤ refCount l' (s.items.set i pNew))
    (hLive : ∀ l' : Nat, l' ≠ li →
      (∃ o : ListObj, s.heap[l']? = some (some o)) →
      ∃ o : ListObj, heapMid[l']? = some (some o))
    (hDead : ∀ l' : Nat, l' ≠ li → s.heap[l']? = some none →
      heapMid[l']? = some none)
    (hNew : ∀ lj : Nat, pNew = some lj →
      ∃ o : ListObj, heapMid[lj]? = some (some o)) :
    (obj_i.ReferenceCount = 1 →
      WF { s with heap := heapMid.set li none,
                  items := s.items.set i pNew,
                  freedLog := s.freedLog ++ [li] }) ∧
    (obj_i.ReferenceCount ≠ 1 →
      WF { s with heap := heapMid.set li (some { obj_i with ReferenceCount := obj_i.ReferenceCount - 1 }),
                  items := s.items.set i pNew,
                  freedLog := s.freedLog }) := by
  have hlenI : i < s.items.length := (List.getElem?_eq_some.mp hi).1
  have hMidLenLi : li < heapMid.length := (List.getElem?_eq_some.mp hMidLi).1
  have hrcLi : obj_i.ReferenceCount = refCount li s.items := h.rc li obj_i hobj
  have hposLi : 1 ≤ refCount li s.items := h.live li obj_i hobj
  have hsetEq : s.items.set i pNew = s.items.set i pNew := rfl
  have hrcLiNew : refCount li (s.items.set i pNew) =
      refCount li s.items - 1 := by
    have hs := refCount_set li s.items i (some li) pNew hi
    rw [if_pos rfl, if_neg hpne] at hs
    omega
  have hfreshLi : li ∉ s.freedLog := by
    intro hmem
    have := h.freedDead li hmem
    rw [hobj] at this
    cases this
  constructor
  · -- the released reference was the last one: delete and log
    intro hrc1
    have hzero : refCount li (s.items.set i pNew) = 0 := by omega
    constructor
    · intro l' obj' hobj'
      by_cases hl : l' = li
      · subst hl
        rw [List.getElem?_set_eq_of_lt _ hMidLenLi] at hobj'
        cases hobj'
      · rw [List.getElem?_set_ne (fun hx => hl hx.symm)] at hobj'
        exact (hA l' obj' hl hobj').1
    · intro l' obj' hobj'
      by_cases hl : l' = li
      · subst hl
        rw [List.getElem?_set_eq_of_lt _ hMidLenLi] at hobj'
        cases hobj'
      · rw [List.getElem?_set_ne (fun hx => hl hx.symm)] at hobj'
        exact (hA l' obj' hl hobj').2
    · intro j' l' hj'
      by_cases hji : j' = i
      · subst hji
        rw [List.getElem?_set_eq_of_lt _ hlenI] at hj'
        have hpn : pNew = some l' := Option.some_inj.mp hj'
        have hlne : l' ≠ li := by
          intro hx
          exact hpne (hx ▸ hpn)
        obtain ⟨o, ho⟩ := hNew l' hpn
        exact ⟨o, by
          rw [List.getElem?_set_ne (fun hx => hlne hx.symm)]
          exact ho⟩
      · rw [List.getElem?_set_ne (fun hx => hji hx.symm)] at hj'
        have hlne : l' ≠ li := by
          intro hx
          subst hx
          have hpos : 1 ≤ refCount l' (s.items.set i pNew) := by
            apply refCount_pos (i := j')
            rw [List.getElem?_set_ne (fun hx => hji hx.symm)]
            exact hj'
          omega
        obtain ⟨o, ho⟩ := h.ptr j' l' hj'
        obtain ⟨o2, ho2⟩ := hLive l' hlne ⟨o, ho⟩
        exact ⟨o2, by
          rw [List.getElem?_set_ne (fun hx => hlne hx.symm)]
          exact ho2⟩
    · exact nodup_concat h.freedNd hfreshLi
    · intro l'' hmem
      rw [List.mem_append, List.mem_singleton] at hmem
      rcases hmem with hmem | hmem
      · have hdead := h.freedDead l'' hmem
        have hne : l'' ≠ li := by
          intro hx
          rw [hx, hobj] at hdead
          cases hdead
        rw [List.getElem?_set_ne (fun hx => hne hx.symm)]
        exact hDead l'' hne hdead
      · subst hmem
        exact List.getElem?_set_eq_of_lt _ hMidLenLi
  · -- other references remain: decrement only
    intro hrc1
    have hge2 : 2 ≤ obj_i.ReferenceCount := by omega
    constructor
    · intro l' obj' hobj'
      by_cases hl : l' = li
      · subst hl
        rw [List.getElem?_set_eq_of_lt _ hMidLenLi] at hobj'
        have : obj' = { obj_i with ReferenceCount := obj_i.ReferenceCount - 1 } := by
          have := Option.some_inj.mp hobj'
          exact (Option.some_inj.mp this).symm
        subst this
        simp only [hrcLiNew]
        omega
      · rw [List.getElem?_set_ne (fun hx => hl hx.symm)] at hobj'
        exact (hA l' obj' hl hobj').1
    · intro l' obj' hobj'
      by_cases hl : l' = li
      · subst hl
        rw [hrcLiNew]
        omega
      · rw [List.getElem?_set_ne (fun hx => hl hx.symm)] at hobj'
        exact (hA l' obj' hl hobj').2
    · intro j' l' hj'
      by_cases hji : j' = i
      · subst hji
        rw [List.getElem?_set_eq_of_lt _ hlenI] at hj'
        have hpn : pNew = some l' := Option.some_inj.mp hj'
        have hlne : l' ≠ li := by
          intro hx
          exact hpne (hx ▸ hpn)
        obtain ⟨o, ho⟩ := hNew l' hpn
        exact ⟨o, by
          rw [List.getElem?_set_ne (fun hx => hlne hx.symm)]
          exact ho⟩
      · rw [List.getElem?_set_ne (fun hx => hji hx.symm)] at hj'
        by_cases hl : l' = li
        · subst hl
          exact ⟨_, List.getElem?_set_eq_of_lt _ hMidLenLi⟩
        · obtain ⟨o, ho⟩ := h.ptr j' l' hj'
          obtain ⟨o2, ho2⟩ := hLive l' hl ⟨o, ho⟩
          exact ⟨o2, by
            rw [List.getElem?_set_ne (fun hx => hl hx.symm)]
            exact ho2⟩
    · exact h.freedNd
    · intro l'' hmem
      have hdead := h.freedDead l'' hmem
      have hne : l'' ≠ li := by
        intro hx
        rw [hx, hobj] at hdead
        cases hdead
      rw [List.getElem?_set_ne (fun hx => hne hx.symm)]
      exact hDead l'' hne hdead

/-- A positive `refCount` is witnessed by an item. -/
theorem exists_of_refCount_pos {xs : List (Option Nat)} {l : Nat}
    (h : 1 ≤ refCount l xs) : ∃ i : Nat, xs[i]? = some (some l) := by
  induction xs with
  | nil => simp [refCount] at h
  | cons a as ih =>
    by_cases ha : a = some l
    · exact ⟨0, by simp [ha]⟩
    · simp only [refCount, if_neg ha, Nat.zero_add] at h
      obtain ⟨i, hi⟩ := ih h
      exact ⟨i + 1, by simpa using hi⟩

/-- Pointing a null item at a live list and bumping that list's count
preserves well-formedness. -/
theorem wf_attach (s : SeqState) (i lj : Nat) (obj_j : ListObj)
    (h : WF s) (hi : s.items[i]? = some none)
    (hj : s.heap[lj]? = some (some obj_j)) :
    WF { s with heap := s.heap.set lj (some { obj_j with ReferenceCount := obj_j.ReferenceCount + 1 }),
                items := s.items.set i (some lj) } := by
  have hlenI : i < s.items.length := (List.getElem?_eq_some.mp hi).1
  have hlenLj : lj < s.heap.length := (List.getElem?_eq_some.mp hj).1
  have hsetEq : ∀ l : Nat,
      refCount l (s.items.set i (some lj)) + 0 =
      refCount l s.items + (if (some lj : Option Nat) = some l then 1 else 0) := by
    intro l
    have hs := refCount_set l s.items i none (some lj) hi
    rw [if_neg (by simp)] at hs
    exact hs
  have hrcLj : refCount lj (s.items.set i (some lj)) =
      refCount lj s.items + 1 := by
    have := hsetEq lj
    rw [if_pos rfl] at this
    omega
  have hrcOther : ∀ l : Nat, l ≠ lj →
      refCount l (s.items.set i (some lj)) = refCount l s.items := by
    intro l hl
    have := hsetEq l
    rw [if_neg (fun hx => hl (Option.some_inj.mp hx).symm)] at this
    omega
  constructor
  · intro l' obj' hobj'
    by_cases hl : l' = lj
    · subst hl
      rw [List.getElem?_set_eq_of_lt _ hlenLj] at hobj'
      have he : { obj_j with ReferenceCount := obj_j.ReferenceCount + 1 } =
          obj' := Option.some_inj.mp (Option.some_inj.mp hobj')
      have hgoal : obj'.ReferenceCount = obj_j.ReferenceCount + 1 := by
        rw [← he]
      rw [hgoal, hrcLj, h.rc _ obj_j hj]
    · rw [List.getElem?_set_ne (fun hx => hl hx.symm)] at hobj'
      rw [hrcOther l' hl]
      exact h.rc l' obj' hobj'
  · intro l' obj' hobj'
    by_cases hl : l' = lj
    · subst hl
      rw [hrcLj]
      omega
    · rw [List.getElem?_set_ne (fun hx => hl hx.symm)] at hobj'
      rw [hrcOther l' hl]
      exact h.live l' obj' hobj'
  · intro j' l' hj'
    by_cases hji : j' = i
    · subst hji
      rw [List.getElem?_set_eq_of_lt _ hlenI] at hj'
      have hx : lj = l' := Option.some_inj.mp (Option.some_inj.mp hj')
      subst hx
      exact ⟨_, List.getElem?_set_eq_of_lt _ hlenLj⟩
    · rw [List.getElem?_set_ne (fun hx => hji hx.symm)] at hj'
      by_cases hl : l' = lj
      · subst hl
        exact ⟨_, List.getElem?_set_eq_of_lt _ hlenLj⟩
      · obtain ⟨o, ho⟩ := h.ptr j' l' hj'
        exact ⟨o, by
          rw [List.getElem?_set_ne (fun hx => hl hx.symm)]
          exact ho⟩
  · exact h.freedNd
  · intro l'' hmem
    have hdead := h.freedDead l'' hmem
    have hne : l'' ≠ lj := by
      intro hx
      rw [hx, hj] at hdead
      cases hdead
    rw [List.getElem?_set_ne (fun hx => hne hx.symm)]
    exact hdead

/-- Re-nulling an already-null item pointer preserves well-formedness. -/
theorem wf_detach_null (s : SeqState) (i : Nat) (h : WF s)
    (hi : s.items[i]? = some none) :
    WF { s with items := s.items.set i none } := by
  have hrc : ∀ l : Nat,
      refCount l (s.items.set i none) = refCount l s.items := by
    intro l
    have hs := refCount_set l s.items i none none hi
    rw [if_neg (by simp)] at hs
    omega
  constructor
  · intro l' obj' hobj'
    rw [hrc l']
    exact h.rc l' obj' hobj'
  · intro l' obj' hobj'
    rw [hrc l']
    exact h.live l' obj' hobj'
  · intro j' l' hj'
    by_cases hji : j' = i
    · subst hji
      rw [List.getElem?_set_eq_of_lt _ (List.getElem?_eq_some.mp hi).1] at hj'
      cases Option.some_inj.mp hj'
    · rw [List.getElem?_set_ne (fun hx => hji hx.symm)] at hj'
      exact h.ptr j' l' hj'
  · exact h.freedNd
  · exact h.freedDead

/-- Appending a null item preserves well-formedness. -/
theorem wf_append_none (s : SeqState) (h : WF s) :
    WF { s with items := s.items ++ [none] } := by
  have hrc : ∀ l : Nat,
      refCount l (s.items ++ [none]) = refCount l s.items := by
    intro l
    rw [refCount_append]
    simp [refCount]
  constructor
  · intro l' obj' hobj'
    rw [hrc l']
    exact h.rc l' obj' hobj'
  · intro l' obj' hobj'
    rw [hrc l']
    exact h.live l' obj' hobj'
  · intro j' l' hj'
    rcases getElem?_append_singleton hj' with hx | hx
    · exact h.ptr j' l' hx
    · cases hx
  · exact h.freedNd
  · exact h.freedDead

/-- Appending an item that shares a live list and bumping that list's
count preserves well-formedness. -/
theorem wf_append_some (s : SeqState) (l : Nat) (obj : ListObj)
    (h : WF s) (hl : s.heap[l]? = some (some obj)) :
    WF { s with items := s.items ++ [some l],
                heap := s.heap.set l (some { obj with ReferenceCount := obj.ReferenceCount + 1 }) } := by
  have hlenL : l < s.heap.length := (List.getElem?_eq_some.mp hl).1
  have hrcL : refCount l (s.items ++ [some l]) = refCount l s.items + 1 := by
    rw [refCount_append]
    simp [refCount]
  have hrcOther : ∀ l' : Nat, l' ≠ l →
      refCount l' (s.items ++ [some l]) = refCount l' s.items := by
    intro l' hne
    rw [refCount_append]
    have hz : refCount l' [some l] = 0 := by
      simp only [refCount]
      rw [if_neg (fun hx => hne (Option.some_inj.mp hx).symm)]
    rw [hz]
    omega
  constructor
  · intro l' obj' hobj'
    by_cases hx : l' = l
    · subst hx
      rw [List.getElem?_set_eq_of_lt _ hlenL] at hobj'
      have he : { obj with ReferenceCount := obj.ReferenceCount + 1 } =
          obj' := Option.some_inj.mp (Option.some_inj.mp hobj')
      have hgoal : obj'.ReferenceCount = obj.ReferenceCount + 1 := by
        rw [← he]
      rw [hgoal, hrcL, h.rc _ obj hl]
    · rw [List.getElem?_set_ne (fun hy => hx hy.symm)] at hobj'
      rw [hrcOther l' hx]
      exact h.rc l' obj' hobj'
  · intro l' obj' hobj'
    by_cases hx : l' = l
    · subst hx
      rw [hrcL]
      omega
    · rw [List.getElem?_set_ne (fun hy => hx hy.symm)] at hobj'
      rw [hrcOther l' hx]
      exact h.live l' obj' hobj'
  · intro j' l' hj'
    rcases getElem?_append_singleton hj' with hx | hx
    · by_cases hy : l' = l
      · subst hy
        exact ⟨_, List.getElem?_set_eq_of_lt _ hlenL⟩
      · obtain ⟨o, ho⟩ := h.ptr j' l' hx
        exact ⟨o, by
          rw [List.getElem?_set_ne (fun hz => hy hz.symm)]
          exact ho⟩
    · have hy : l' = l := Option.some_inj.mp hx
      subst hy
      exact ⟨_, List.getElem?_set_eq_of_lt _ hlenL⟩
  · exact h.freedNd
  · intro l'' hmem
    have hdead := h.freedDead l'' hmem
    have hne : l'' ≠ l := by
      intro hx
      rw [hx, hl] at hdead
      cases hdead
    rw [List.getElem?_set_ne (fun hx => hne hx.symm)]
    exact hdead

/-- Auxiliary: after nulling item `i` (which pointed at `li`), every
other live list still has its count equal to the number of referencing
items. -/
theorem wf_release_aux (s : SeqState) (i li : Nat) (h : WF s)
    (hit : s.items[i]? = some (some li)) :
    ∀ (l' : Nat) (obj' : ListObj), l' ≠ li →
      s.heap[l']? = some (some obj') →
      obj'.ReferenceCount = refCount l' (s.items.set i none) ∧
      1 ≤ refCount l' (s.items.set i none) := by
  intro l' obj' hne hobj'
  have hs := refCount_set l' s.items i (some li) none hit
  rw [if_neg (fun hx => hne (Option.some_inj.mp hx).symm),
    if_neg (by simp)] at hs
  have hrc := h.rc l' obj' hobj'
  have hlive := h.live l' obj' hobj'
  omega

/-- `vtkDICOMSequenceItem::Clear` preserves well-formedness. -/
theorem wf_clearItem (s : SeqState) (i : Nat) (h : WF s) :
    WF (clearItem s i) := by
  rcases hit : s.items[i]? with _ | p
  · unfold clearItem
    simp only [hit]
    exact h
  rcases p with _ | li
  · have hmain : clearItem s i = { s with items := s.items.set i none } := by
      unfold clearItem releaseRef
      simp only [hit]
      simp
    rw [hmain]
    exact wf_detach_null s i h hit
  · obtain ⟨obj_i, hobj⟩ := h.ptr i li hit
    have hcore := wf_core s i li obj_i none s.heap h hit hobj hobj
      (by simp)
      (wf_release_aux s i li h hit)
      (fun l' _ hx => hx)
      (fun l' _ hx => hx)
      (by intro lj hx; cases hx)
    by_cases hrc : obj_i.ReferenceCount = 1
    · have hmain : clearItem s i =
          { s with heap := s.heap.set li none,
                   items := s.items.set i none,
                   freedLog := s.freedLog ++ [li] } := by
        unfold clearItem releaseRef
        simp only [hit, hobj]
        rw [if_pos hrc]
        rfl
      rw [hmain]
      exact hcore.1 hrc
    · have hmain : clearItem s i =
          { s with heap := s.heap.set li (some { obj_i with ReferenceCount := obj_i.ReferenceCount - 1 }),
                   items := s.items.set i none,
                   freedLog := s.freedLog } := by
        unfold clearItem releaseRef
        simp only [hit, hobj]
        rw [if_neg hrc]
        simp
      rw [hmain]
      exact hcore.2 hrc

/-- `vtkDICOMSequenceItem::operator=` preserves well-formedness. -/
theorem wf_assignItem (s : SeqState) (i j : Nat) (h : WF s) :
    WF (assignItem s i j) := by
  rcases hit : s.items[i]? with _ | pi
  · unfold assignItem
    simp only [hit]
    exact h
  rcases hjt : s.items[j]? with _ | pj
  · unfold assignItem
    simp only [hit, hjt]
    exact h
  by_cases hpe : pi = pj
  · unfold assignItem
    simp only [hit, hjt]
    rw [if_pos hpe]
    exact h
  rcases pi with _ | li
  · rcases pj with _ | lj
    · exact absurd rfl hpe
    obtain ⟨obj_j, hoj⟩ := h.ptr j lj hjt
    have hmain : assignItem s i j =
        { s with heap := s.heap.set lj (some { obj_j with ReferenceCount := obj_j.ReferenceCount + 1 }),
                 items := s.items.set i (some lj),
                 freedLog := s.freedLog } := by
      unfold assignItem
      simp only [hit, hjt]
      rw [if_neg hpe]
      unfold acquireRef releaseRef
      simp only [hoj]
      simp
    rw [hmain]
    exact wf_attach s i lj obj_j h hit hoj
  · obtain ⟨obj_i, hoi⟩ := h.ptr i li hit
    rcases pj with _ | lj
    · -- assign a null pointer: pure release of li
      have hcore := wf_core s i li obj_i none s.heap h hit hoi hoi
        (by simp)
        (wf_release_aux s i li h hit)
        (fun l' _ hx => hx)
        (fun l' _ hx => hx)
        (by intro lj hx; cases hx)
      by_cases hrc : obj_i.ReferenceCount = 1
      · have hmain : assignItem s i j =
            { s with heap := s.heap.set li none,
                     items := s.items.set i none,
                     freedLog := s.freedLog ++ [li] } := by
          unfold assignItem
          simp only [hit, hjt]
          rw [if_neg hpe]
          unfold acquireRef releaseRef
          simp only [hoi]
          rw [if_pos hrc]
          rfl
        rw [hmain]
        exact hcore.1 hrc
      · have hmain : assignItem s i j =
            { s with heap := s.heap.set li (some { obj_i with ReferenceCount := obj_i.ReferenceCount - 1 }),
                     items := s.items.set i none,
                     freedLog := s.freedLog } := by
          unfold assignItem
          simp only [hit, hjt]
          rw [if_neg hpe]
          unfold acquireRef releaseRef
          simp only [hoi]
          rw [if_neg hrc]
          simp
        rw [hmain]
        exact hcore.2 hrc
    · -- both pointers non-null and different
      have hne : li ≠ lj := fun hx => hpe (by rw [hx])
      obtain ⟨obj_j, hoj⟩ := h.ptr j lj hjt
      have hlenLj : lj < s.heap.length := (List.getElem?_eq_some.mp hoj).1
      have hMidLi : (s.heap.set lj (some { obj_j with ReferenceCount := obj_j.ReferenceCount + 1 }))[li]? =
          some (some obj_i) := by
        rw [List.getElem?_set_ne (fun hx => hne hx.symm)]
        exact hoi
      have hA : ∀ (l' : Nat) (obj' : ListObj), l' ≠ li →
          (s.heap.set lj (some { obj_j with ReferenceCount := obj_j.ReferenceCount + 1 }))[l']? =
            some (some obj') →
          obj'.ReferenceCount = refCount l' (s.items.set i (some lj)) ∧
          1 ≤ refCount l' (s.items.set i (some lj)) := by
        intro l' obj' hne' hobj'
        have hs := refCount_set l' s.items i (some li) (some lj) hit
        by_cases hl : l' = lj
        · subst hl
          rw [List.getElem?_set_eq_of_lt _ hlenLj] at hobj'
          have he : { obj_j with ReferenceCount := obj_j.ReferenceCount + 1 } =
              obj' := Option.some_inj.mp (Option.some_inj.mp hobj')
          have hgoal : obj'.ReferenceCount = obj_j.ReferenceCount + 1 := by
            rw [← he]
          rw [if_neg (fun hx => hne (Option.some_inj.mp hx)),
            if_pos rfl] at hs
          have hrcj := h.rc l' obj_j hoj
          constructor
          · rw [hgoal]
            omega
          · omega
        · rw [List.getElem?_set_ne (fun hx => hl hx.symm)] at hobj'
          rw [if_neg (fun hx => hne' (Option.some_inj.mp hx).symm),
            if_neg (fun hx => hl (Option.some_inj.mp hx).symm)] at hs
          have hrc := h.rc l' obj' hobj'
          have hlive := h.live l' obj' hobj'
          omega
      have hLive : ∀ l' : Nat, l' ≠ li →
          (∃ o : ListObj, s.heap[l']? = some (some o)) →
          ∃ o : ListObj,
            (s.heap.set lj (some { obj_j with ReferenceCount := obj_j.ReferenceCount + 1 }))[l']? =
              some (some o) := by
        intro l' hne' hex
        by_cases hl : l' = lj
        · subst hl
          exact ⟨_, List.getElem?_set_eq_of_lt _ hlenLj⟩
        · obtain ⟨o, ho⟩ := hex
          exact ⟨o, by
            rw [List.getElem?_set_ne (fun hx => hl hx.symm)]
            exact ho⟩
      have hDead : ∀ l' : Nat, l' ≠ li → s.heap[l']? = some none →
          (s.heap.set lj (some { obj_j with ReferenceCount := obj_j.ReferenceCount + 1 }))[l']? =
            some none := by
        intro l' hne' hdead
        have hl : l' ≠ lj := by
          intro hx
          rw [hx, hoj] at hdead
          cases hdead
        rw [List.getElem?_set_ne (fun hx => hl hx.symm)]
        exact hdead
      have hNew : ∀ lj' : Nat, (some lj : Option Nat) = some lj' →
          ∃ o : ListObj,
            (s.heap.set lj (some { obj_j with ReferenceCount := obj_j.ReferenceCount + 1 }))[lj']? =
              some (some o) := by
        intro lj' hx
        have := Option.some_inj.mp hx
        subst this
        exact ⟨_, List.getElem?_set_eq_of_lt _ hlenLj⟩
      have hcore := wf_core s i li obj_i (some lj)
        (s.heap.set lj (some { obj_j with ReferenceCount := obj_j.ReferenceCount + 1 }))
        h hit hoi hMidLi
        (fun hx => hne (Option.some_inj.mp hx).symm)
        hA hLive hDead hNew
      by_cases hrc : obj_i.ReferenceCount = 1
      · have hmain : assignItem s i j =
            { s with heap := (s.heap.set lj (some { obj_j with ReferenceCount := obj_j.ReferenceCount + 1 })).set li none,
                     items := s.items.set i (some lj),
                     freedLog := s.freedLog ++ [li] } := by
          unfold assignItem
          simp only [hit, hjt]
          rw [if_neg hpe]
          unfold acquireRef releaseRef
          simp only [hoj, hMidLi]
          rw [if_pos hrc]
          rfl
        rw [hmain]
        exact hcore.1 hrc
      · have hmain : assignItem s i j =
            { s with heap := (s.heap.set lj (some { obj_j with ReferenceCount := obj_j.ReferenceCount + 1 })).set li (some { obj_i with ReferenceCount := obj_i.ReferenceCount - 1 }),
                     items := s.items.set i (some lj),
                     freedLog := s.freedLog } := by
          unfold assignItem
          simp only [hit, hjt]
          rw [if_neg hpe]
          unfold acquireRef releaseRef
          simp only [hoj, hMidLi]
          rw [if_neg hrc]
          simp
        rw [hmain]
        exact hcore.2 hrc

/-- The copy constructor preserves well-formedness. -/
theorem wf_copyItem (s : SeqState) (src : Nat) (h : WF s) :
    WF (copyItem s src) := by
  rcases hst : s.items[src]? with _ | p
  · unfold copyItem
    simp only [hst]
    exact h
  rcases p with _ | l
  · have hmain : copyItem s src = { s with items := s.items ++ [none] } := by
      unfold copyItem acquireRef
      simp only [hst]
    rw [hmain]
    exact wf_append_none s h
  · obtain ⟨obj, hl⟩ := h.ptr src l hst
    have hmain : copyItem s src =
        { s with items := s.items ++ [some l],
                 heap := s.heap.set l (some { obj with ReferenceCount := obj.ReferenceCount + 1 }) } := by
      unfold copyItem acquireRef
      simp only [hst, hl]
    rw [hmain]
    exact wf_append_some s l obj h hl

/-- Every operation preserves well-formedness. -/
theorem wf_applyOp (s : SeqState) (op : SeqOp) (h : WF s) :
    WF (applyOp s op) := by
  cases op with
  | newOp => exact wf_append_none s h
  | copyOp src => exact wf_copyItem s src h
  | assignOp i j => exact wf_assignItem s i j h
  | clearOp i => exact wf_clearItem s i h
  | destroyOp i => exact wf_clearItem s i h

/-- Every run of operations preserves well-formedness. -/
theorem wf_runOps (s : SeqState) (ops : List SeqOp) (h : WF s) :
    WF (runOps s ops) := by
  induction ops generalizing s with
  | nil => exact h
  | cons op rest ih => exact ih (applyOp s op) (wf_applyOp s op h)

/-- What one `Clear` does to the released list: deletes and logs it when
its count is 1, decrements it otherwise. -/
theorem clear_behavior (t : SeqState) (i l : Nat) (obj : ListObj)
    (hi : t.items[i]? = some (some l))
    (hl : t.heap[l]? = some (some obj)) :
    (obj.ReferenceCount = 1 →
      (clearItem t i).heap[l]? = some none ∧
      (clearItem t i).freedLog = t.freedLog ++ [l]) ∧
    (obj.ReferenceCount ≠ 1 →
      (clearItem t i).heap[l]? = some (some { obj with ReferenceCount := obj.ReferenceCount - 1 }) ∧
      (clearItem t i).freedLog = t.freedLog) := by
  have hlen : l < t.heap.length := (List.getElem?_eq_some.mp hl).1
  constructor
  · intro hrc
    have hmain : clearItem t i =
        { t with heap := t.heap.set l none,
                 items := t.items.set i none,
                 freedLog := t.freedLog ++ [l] } := by
      unfold clearItem releaseRef
      simp only [hi, hl]
      rw [if_pos hrc]
      rfl
    rw [hmain]
    exact ⟨List.getElem?_set_eq_of_lt _ hlen, rfl⟩
  · intro hrc
    have hmain : clearItem t i =
        { t with heap := t.heap.set l (some { obj with ReferenceCount := obj.ReferenceCount - 1 }),
                 items := t.items.set i none,
                 freedLog := t.freedLog } := by
      unfold clearItem releaseRef
      simp only [hi, hl]
      rw [if_neg hrc]
      simp
    rw [hmain]
    exact ⟨List.getElem?_set_eq_of_lt _ hlen, rfl⟩

/-- C2: along every sequence of copy-constructions, assignments, `Clear`
calls and destructions (the destructor is `Clear`), starting from any
well-formed state: well-formedness is preserved; every allocated list's
reference count equals the number of items referencing it and is at least
1 — so the count stays ≥ 1 while any item references the list and no list
leaks; the deletion log never repeats an address, so no list is deleted
twice; every logged address is a deleted slot no item references; and the
release step deletes a list exactly when its count is 1 — i.e. exactly
when the last referencing item is cleared or destroyed — and otherwise
only decrements it. -/
theorem seq_reference_lifetime (s0 : SeqState) (ops : List SeqOp)
    (h0 : WF s0) :
    WF (runOps s0 ops) ∧
    (∀ (l : Nat) (obj : ListObj),
      (runOps s0 ops).heap[l]? = some (some obj) →
      obj.ReferenceCount = refCount l (runOps s0 ops).items ∧
      1 ≤ obj.ReferenceCount) ∧
    (runOps s0 ops).freedLog.Nodup ∧
    (∀ l : Nat, l ∈ (runOps s0 ops).freedLog →
      (runOps s0 ops).heap[l]? = some none ∧
      refCount l (runOps s0 ops).items = 0) ∧
    (∀ (t : SeqState) (i l : Nat) (obj : ListObj),
      t.items[i]? = some (some l) → t.heap[l]? = some (some obj) →
      (obj.ReferenceCount = 1 →
        (clearItem t i).heap[l]? = some none ∧
        (clearItem t i).freedLog = t.freedLog ++ [l]) ∧
      (obj.ReferenceCount ≠ 1 →
        (clearItem t i).heap[l]? = some (some { obj with ReferenceCount := obj.ReferenceCount - 1 }) ∧
        (clearItem t i).freedLog = t.freedLog)) := by
  have hwf := wf_runOps s0 ops h0
  refine ⟨hwf, ?_, hwf.freedNd, ?_, ?_⟩
  · intro l obj hobj
    have h1 := hwf.rc l obj hobj
    have h2 := hwf.live l obj hobj
    exact ⟨h1, by omega⟩
  · intro l hmem
    have hdead := hwf.freedDead l hmem
    refine ⟨hdead, ?_⟩
    by_contra hpos
    have hp : 1 ≤ refCount l (runOps s0 ops).items := by omega
    obtain ⟨idx, hidx⟩ := exists_of_refCount_pos hp
    obtain ⟨o, ho⟩ := hwf.ptr idx l hidx
    rw [hdead] at ho
    cases ho
  · intro t i l obj hi hl
    exact clear_behavior t i l obj hi hl

/-- Witness for C2: one item with a single-reference list; copy it, then
clear the original and the copy — the list is deleted exactly once, by
the second clear. -/
theorem seq_reference_lifetime_witness :
    WF (runOps ⟨[some ⟨1, 0, []⟩], [some 0], []⟩
      [SeqOp.copyOp 0, SeqOp.clearOp 0, SeqOp.clearOp 1]) ∧
    (runOps ⟨[some ⟨1, 0, []⟩], [some 0], []⟩
      [SeqOp.copyOp 0, SeqOp.clearOp 0, SeqOp.clearOp 1]).freedLog.Nodup := by
  have h0 : WF ⟨[some ⟨1, 0, []⟩], [some 0], []⟩ := by
    refine ⟨?_, ?_, ?_, List.nodup_nil, ?_⟩
    · intro l obj hobj
      rcases l with _ | l
      · simp only [List.getElem?_cons_zero, Option.some_inj] at hobj
        rw [← hobj]
        decide
      · simp at hobj
    · intro l obj hobj
      rcases l with _ | l
      · simp only [List.getElem?_cons_zero, Option.some_inj] at hobj
        decide
      · simp at hobj
    · intro i l hi
      rcases i with _ | i
      · simp only [List.getElem?_cons_zero, Option.some_inj] at hi
        rw [← hi]
        exact ⟨⟨1, 0, []⟩, rfl⟩
      · simp at hi
    · intro l hmem
      simp at hmem
  have h := seq_reference_lifetime ⟨[some ⟨1, 0, []⟩], [some 0], []⟩
    [SeqOp.copyOp 0, SeqOp.clearOp 0, SeqOp.clearOp 1] h0
  exact ⟨h.1, h.2.2.1⟩

end VtkDicom
